import Mathlib

/-!
Shallow embedding of the geometry / simulation engine of the `vex-route-planner`
application (source of authority: `src/src/App.tsx`; the second variant
`src/unnamed/part_000` differs only in rounding precision, point radius and the
emitted code strings).  JavaScript numbers are idealised as real numbers `ℝ`
with Lean's total division (`x / 0 = 0`); each place where the JavaScript
semantics of a division by zero (`NaN` / `±Infinity`) is observable is
translated explicitly and documented at the definition site.  List indexing
`points[i]` is rendered as `List.getD i dfltPt`; all theorems only use it
in range, matching the callers.
-/

namespace VexRoute

noncomputable section

open Real

/-- The `Point` record of `src/src/types.ts`: screen position `(x, y)` in
pixels, field position `(fieldX, fieldY)` in inches, and the per-waypoint
attributes.  `theta` is the stored heading in degrees (0 = up, 90 = right),
`timeout` is in milliseconds, `speed` in motor units, `forwards` the
direction flag of the extended variant. -/
@[ext]
structure Pt where
  x : ℝ
  y : ℝ
  fieldX : ℝ
  fieldY : ℝ
  id : ℤ
  theta : ℝ
  timeout : ℝ
  speed : ℝ
  forwards : Bool

/-- Default point used for out-of-range list reads (which never happen in the
theorems below; the JavaScript source would crash on such a read). -/
def dfltPt : Pt :=
  { x := 0, y := 0, fieldX := 0, fieldY := 0, id := 0, theta := 0,
    timeout := 0, speed := 0, forwards := true }

/-! ### Coordinate transform (`pixelToFieldCoords` / `fieldToPixelCoords`)

`App.tsx` lines 466-503.  The image is `w` pixels wide; the playable field is
the central `1932 × 1932` pixel square representing `144 × 144` inches.  The
`image = null` early-return is the degenerate case excluded by taking the
loaded image's width `w` as a parameter. -/

/-- `pixelToFieldCoords` of `App.tsx` (loaded-image case). -/
def pixelToFieldCoords (w pixelX pixelY : ℝ) : ℝ × ℝ :=
  let fieldPixelSize : ℝ := 1932
  let fieldInchSize : ℝ := 144
  let wallPadding := (w - fieldPixelSize) / 2
  let centerX := wallPadding + fieldPixelSize / 2
  let centerY := wallPadding + fieldPixelSize / 2
  let pixelsPerInch := fieldPixelSize / fieldInchSize
  ((pixelX - centerX) / pixelsPerInch, (centerY - pixelY) / pixelsPerInch)

/-- `fieldToPixelCoords` of `App.tsx` (loaded-image case). -/
def fieldToPixelCoords (w fieldX fieldY : ℝ) : ℝ × ℝ :=
  let fieldPixelSize : ℝ := 1932
  let fieldInchSize : ℝ := 144
  let wallPadding := (w - fieldPixelSize) / 2
  let centerX := wallPadding + fieldPixelSize / 2
  let centerY := wallPadding + fieldPixelSize / 2
  let pixelsPerInch := fieldPixelSize / fieldInchSize
  (fieldX * pixelsPerInch + centerX, centerY - fieldY * pixelsPerInch)

/-! ### Rounding

`Math.round(v * 10) / 10` appears at every mutation site of `App.tsx`.
`Math.round` rounds half towards `+∞`, i.e. `⌊v + 1/2⌋`. -/

/-- JavaScript `Math.round`: round half up. -/
def jsRound (v : ℝ) : ℤ := ⌊v + 1 / 2⌋

/-- `Math.round(v * 10) / 10`: round to one decimal place. -/
def round1 (v : ℝ) : ℝ := (jsRound (v * 10) : ℝ) / 10

/-! ### Waypoint mutations -/

/-- The screen-synchronisation invariant of the spec's data model: every
stored screen position equals the coordinate transform of the stored field
position (image width `w`). -/
def ScreenInv (w : ℝ) (ps : List Pt) : Prop :=
  ∀ p ∈ ps, p.x = (fieldToPixelCoords w p.fieldX p.fieldY).1 ∧
    p.y = (fieldToPixelCoords w p.fieldX p.fieldY).2

/-- `updateSelectedPointFieldCoords` of `App.tsx` lines 506-513: set the
selected point's field coordinates and re-derive its screen position. -/
def updateSelectedPointFieldCoords (w : ℝ) (ps : List Pt) (selectedId : Option ℤ)
    (fieldX fieldY : ℝ) : List Pt :=
  match selectedId with
  | none => ps
  | some sid =>
    let xy := fieldToPixelCoords w fieldX fieldY
    ps.map fun p =>
      if p.id = sid then
        { p with x := xy.1, y := xy.2, fieldX := fieldX, fieldY := fieldY }
      else p

/-- The dragging part of `handleMouseMove` (`App.tsx` lines 687-696): the
dragged point's screen position is set to the raw mouse position, while its
field position is set to the converted mouse position rounded to one
decimal. -/
def handleMouseMoveDrag (w : ℝ) (ps : List Pt) (draggingId : Option ℤ)
    (x y : ℝ) : List Pt :=
  match draggingId with
  | none => ps
  | some did =>
    let f := pixelToFieldCoords w x y
    ps.map fun p =>
      if p.id = did then
        { p with x := x, y := y, fieldX := round1 f.1, fieldY := round1 f.2 }
      else p

/-- The "Flip X" button (`App.tsx` lines 914-924): negate every field `y` and
mirror every screen `y` inside an image of height `h`. -/
def flipXPoints (h : ℝ) (ps : List Pt) : List Pt :=
  ps.map fun p => { p with fieldY := -p.fieldY, y := -p.y + h }

/-- The "Flip Y" button (`App.tsx` lines 925-935): negate every field `x` and
mirror every screen `x` inside an image of width `w`. -/
def flipYPoints (w : ℝ) (ps : List Pt) : List Pt :=
  ps.map fun p => { p with fieldX := -p.fieldX, x := -p.x + w }

/-- `POINT_RADIUS` of `App.tsx`. -/
def POINT_RADIUS : ℝ := 30

open scoped Classical in
/-- `handleCanvasClick` of `App.tsx` lines 616-655, acting on the state
`(points, nextId)` it reads and writes, and additionally returning the
selection it sets.  A click within `POINT_RADIUS` of an existing point
(`Math.hypot`, modelled as `Real.sqrt` of the sum of squares) selects it;
otherwise a new point is appended with field coordinates rounded to one
decimal, screen position re-derived from the rounded field coordinates, and
default attributes. -/
noncomputable def handleCanvasClick (w : ℝ) (ps : List Pt) (nextId : ℤ)
    (x y : ℝ) : List Pt × ℤ × Option ℤ :=
  match ps.find? (fun p =>
      decide (Real.sqrt ((p.x - x) * (p.x - x) + (p.y - y) * (p.y - y)) < POINT_RADIUS)) with
  | some clicked => (ps, nextId, some clicked.id)
  | none =>
    let f := pixelToFieldCoords w x y
    let fieldXR := round1 f.1
    let fieldYR := round1 f.2
    let pxy := fieldToPixelCoords w fieldXR fieldYR
    (ps ++ [{ x := pxy.1, y := pxy.2, fieldX := fieldXR, fieldY := fieldYR,
              id := nextId, theta := 0, timeout := 1000, speed := 70,
              forwards := true }],
     nextId + 1, some nextId)

/-! ### Route import

`App.tsx` lines 746-767: the file's text is parsed; only when the parsed root
is an array does the handler replace the store and re-derive the counter
(`Math.max(...ids, -1) + 1`); a non-array root (or a parse error, which only
alerts) leaves the state untouched. -/

/-- The parsed root of an imported file: either an array of point records or
anything else (including malformed JSON, whose `catch` also leaves the state
unchanged). -/
inductive ImportPayload
  | jsonArray (ps : List Pt)
  | nonArray

/-- The import handler acting on the `(points, nextId)` state. -/
def importRoute (st : List Pt × ℤ) : ImportPayload → List Pt × ℤ
  | .nonArray => st
  | .jsonArray qs => (qs, ((qs.map Pt.id).foldr max (-1)) + 1)

/-! ### Heading resolver (`getEffectiveTheta`, `App.tsx` lines 34-53) -/

/-- JavaScript `Math.atan2(y, x)`: the angle of the vector `(x, y)` in
`(-π, π]`, which is exactly `Complex.arg` of `x + y·i` (both return `0` at
the origin). -/
def atan2 (y x : ℝ) : ℝ := Complex.arg ⟨x, y⟩

/-- The source's first normalisation loop, `while (degrees < 0) degrees += 360`. -/
def addTo0 (d : ℝ) : ℝ :=
  if h : d < 0 then addTo0 (d + 360) else d
termination_by (⌈-d / 360⌉).toNat
decreasing_by
  have h1 : -(d + 360) / 360 = -d / 360 - 1 := by ring
  have h2 : (0 : ℝ) < -d / 360 := by
    have : (0 : ℝ) < -d := by linarith
    positivity
  rw [h1, Int.ceil_sub_one]
  have h3 : 0 < ⌈-d / 360⌉ := Int.ceil_pos.mpr h2
  omega

/-- The source's second normalisation loop, `while (degrees >= 360) degrees -= 360`. -/
def subTo360 (d : ℝ) : ℝ :=
  if h : 360 ≤ d then subTo360 (d - 360) else d
termination_by (⌈d / 360⌉).toNat
decreasing_by
  have h1 : (d - 360) / 360 = d / 360 - 1 := by ring
  have h2 : (0 : ℝ) < d / 360 := by
    have : (0 : ℝ) < d := by linarith
    positivity
  rw [h1, Int.ceil_sub_one]
  have h3 : 0 < ⌈d / 360⌉ := Int.ceil_pos.mpr h2
  omega

/-- `getEffectiveTheta`: for a non-last index, the screen-space angle to the
successor converted to the domain convention (0 = up, clockwise) and
normalised by the two loops; for the last index, the stored `theta` returned
directly.  (For `index < points.length - 1` Lean's truncated `ℕ`
subtraction agrees with the JavaScript comparison at every valid index.) -/
def getEffectiveTheta (ps : List Pt) (index : ℕ) : ℝ :=
  if index < ps.length - 1 then
    let dx := (ps.getD (index + 1) dfltPt).x - (ps.getD index dfltPt).x
    let dy := (ps.getD (index + 1) dfltPt).y - (ps.getD index dfltPt).y
    let radians := atan2 dy dx
    subTo360 (addTo0 ((radians + Real.pi / 2) * 180 / Real.pi))
  else
    (ps.getD index dfltPt).theta

/-! ### Code emitter (`generatedCodeLines`, `App.tsx` lines 55-71)

The emitted strings are template instantiations; the embedding keeps each
template's numeric/boolean payload structurally (the fixed pieces of text,
including the constant `500` turn timeout and the trailing `false` argument,
belong to the template).  `pointIndex` is `number | null` in the source; the
code only ever stores an index or `-1`, modelled as `some`. -/

/-- The four emitted line templates. -/
inductive LineTpl
  | setPose (x y theta : ℝ)
  | blank
  | turnToPoint (x y : ℝ) (forwards : Bool) (maxSpeed : ℝ)
  | moveToPoint (x y timeout : ℝ) (forwards : Bool) (maxSpeed : ℝ)

/-- One emitted line together with the waypoint index it is mapped to. -/
structure CodeLine where
  line : LineTpl
  pointIndex : Option ℤ

/-- Default line used for out-of-range reads of the emitted line list. -/
def dfltCodeLine : CodeLine := { line := .blank, pointIndex := none }

/-- The lines pushed for `points[1], points[2], ...` (`i` is the running
waypoint index, starting at 1): a blank separator tagged `-1`, then the turn
and move commands tagged with the waypoint's index. -/
def genTailLines (i : ℤ) : List Pt → List CodeLine
  | [] => []
  | p :: rest =>
    { line := .blank, pointIndex := some (-1) } ::
    { line := .turnToPoint (round1 p.fieldX) (round1 p.fieldY) p.forwards p.speed,
      pointIndex := some i } ::
    { line := .moveToPoint (round1 p.fieldX) (round1 p.fieldY) p.timeout p.forwards p.speed,
      pointIndex := some i } ::
    genTailLines (i + 1) rest

/-- `generatedCodeLines`: empty for an empty store; otherwise the initial
pose line for waypoint 0 followed by the three-line groups of every
subsequent waypoint. -/
def generatedCodeLines (ps : List Pt) : List CodeLine :=
  match ps with
  | [] => []
  | p :: rest =>
    { line := .setPose (round1 p.fieldX) (round1 p.fieldY)
        (round1 (getEffectiveTheta (p :: rest) 0)),
      pointIndex := some 0 } :: genTailLines 1 rest

/-! ### Path sampler (`getRobotPositionAndRotation`, `App.tsx` lines 516-560) -/

/-- Euclidean length of the segment between two points, in screen space. -/
def segLen (p q : Pt) : ℝ :=
  Real.sqrt ((q.x - p.x) * (q.x - p.x) + (q.y - p.y) * (q.y - p.y))

/-- The list of consecutive waypoint pairs (the path's segments). -/
def segsOf (ps : List Pt) : List (Pt × Pt) := ps.zip ps.tail

/-- Sum of the segment lengths of a segment list. -/
def sumLens (segs : List (Pt × Pt)) : ℝ := (segs.map fun s => segLen s.1 s.2).sum

/-- The `totalLength` accumulated by the source's first loop. -/
def totalLen (ps : List Pt) : ℝ := sumLens (segsOf ps)

/-- A JavaScript number that is either an actual real value or `NaN`.  The
walk below divides by a segment length that can be `0`; the quotient is then
`NaN` (or `±Infinity`), and multiplying it by the zero component difference
produces `NaN`, which propagates into the returned coordinate.  `ℝ` has no
`NaN`, so the observable outcome is modelled by this sum type. -/
inductive NumOrNaN
  | nan
  | num (v : ℝ)

/-- The source's second loop: walk the segments accumulating `cur`; on the
first segment with `cur + len ≥ target`, interpolate the position at
`segmentProgress = (target - cur)/len` and return the segment's `atan2`
direction.  When that segment's length is `0` (forcing `dx = dy = 0`), the
JavaScript quotient is `NaN` for `target = cur` and `-Infinity` for
`target < cur`, and in both cases `p.x + dx * segmentProgress = p.x + 0 * t`
is `NaN`: the returned coordinates are `NaN`, modelled by the explicit
zero-length branch (`atan2(0, 0) = 0` stays a real number). -/
def sampleWalk : List (Pt × Pt) → ℝ → ℝ → Option (NumOrNaN × NumOrNaN × ℝ)
  | [], _, _ => none
  | (p, q) :: rest, target, cur =>
    let len := segLen p q
    if cur + len ≥ target then
      if len = 0 then
        some (.nan, .nan, atan2 (q.y - p.y) (q.x - p.x))
      else
        let t := (target - cur) / len
        some (.num (p.x + (q.x - p.x) * t), .num (p.y + (q.y - p.y) * t),
              atan2 (q.y - p.y) (q.x - p.x))
    else
      sampleWalk rest target (cur + len)

/-- `getRobotPositionAndRotation`: `none` for fewer than two waypoints or a
zero total length; otherwise walk to `targetDistance = totalLength * progress`;
if the walk falls through (only possible for `targetDistance` beyond the
total length) return the last waypoint's position with its stored heading
converted to screen radians. -/
def getRobotPositionAndRotation (ps : List Pt) (progress : ℝ) :
    Option (NumOrNaN × NumOrNaN × ℝ) :=
  if ps.length < 2 then none
  else
    let total := totalLen ps
    if total = 0 then none
    else
      match sampleWalk (segsOf ps) (total * progress) 0 with
      | some r => some r
      | none =>
        let last := ps.getD (ps.length - 1) dfltPt
        some (.num last.x, .num last.y, (last.theta - 90) * (Real.pi / 180))

/-- The same walk instrumented to report the cumulative distance
`cur + len * segmentProgress` travelled from the path start to the returned
position (used to state the sampler's monotonicity property).  On a firing
zero-length segment the JavaScript value is `cur + 0 * segmentProgress =
cur + NaN = NaN`, mirrored by the explicit branch. -/
def travelWalk : List (Pt × Pt) → ℝ → ℝ → Option NumOrNaN
  | [], _, _ => none
  | (p, q) :: rest, target, cur =>
    let len := segLen p q
    if cur + len ≥ target then
      if len = 0 then some .nan
      else some (.num (cur + len * ((target - cur) / len)))
    else travelWalk rest target (cur + len)

/-- Cumulative distance travelled at a given progress value: the sampler's
guards followed by the instrumented walk (at the fall-through the robot sits
on the last waypoint, having travelled the whole path). -/
def sampleTravel (ps : List Pt) (progress : ℝ) : Option NumOrNaN :=
  if ps.length < 2 then none
  else
    let total := totalLen ps
    if total = 0 then none
    else
      match travelWalk (segsOf ps) (total * progress) 0 with
      | some d => some d
      | none => some (.num total)

/-- Cumulative length of the first `k` segments of the path. -/
def priorLen : List Pt → ℕ → ℝ
  | _, 0 => 0
  | p :: q :: rest, k + 1 => segLen p q + priorLen (q :: rest) k
  | _, _ + 1 => 0

/-! ### Proximity projector (`getClosestPointOnPath`, `App.tsx` lines 563-613)

The loop body is indexed, so the embedding works with per-index candidate
data over `List.range (points.length - 1)`. -/

/-- Start point of segment `i` (`points[i]`). -/
def segA (ps : List Pt) (i : ℕ) : Pt := ps.getD i dfltPt

/-- End point of segment `i` (`points[i + 1]`). -/
def segB (ps : List Pt) (i : ℕ) : Pt := ps.getD (i + 1) dfltPt

/-- `dx` of segment `i`. -/
def segDx (ps : List Pt) (i : ℕ) : ℝ := (segB ps i).x - (segA ps i).x

/-- `dy` of segment `i`. -/
def segDy (ps : List Pt) (i : ℕ) : ℝ := (segB ps i).y - (segA ps i).y

/-- `lenSq = dx*dx + dy*dy` of segment `i`. -/
def lenSq (ps : List Pt) (i : ℕ) : ℝ :=
  segDx ps i * segDx ps i + segDy ps i * segDy ps i

/-- The clamped foot parameter
`t = max(0, min(1, ((mx-p1.x)*dx + (my-p1.y)*dy) / lenSq))` of segment `i`. -/
def tClamp (ps : List Pt) (i : ℕ) (mx my : ℝ) : ℝ :=
  max 0 (min 1 (((mx - (segA ps i).x) * segDx ps i +
    (my - (segA ps i).y) * segDy ps i) / lenSq ps i))

/-- `closestX` for segment `i`. -/
def footX (ps : List Pt) (i : ℕ) (mx my : ℝ) : ℝ :=
  (segA ps i).x + tClamp ps i mx my * segDx ps i

/-- `closestY` for segment `i`. -/
def footY (ps : List Pt) (i : ℕ) (mx my : ℝ) : ℝ :=
  (segA ps i).y + tClamp ps i mx my * segDy ps i

/-- `Math.hypot(mouseX - closestX, mouseY - closestY)` for segment `i`. -/
def candDist (ps : List Pt) (i : ℕ) (mx my : ℝ) : ℝ :=
  Real.sqrt ((mx - footX ps i mx my) * (mx - footX ps i mx my) +
    (my - footY ps i mx my) * (my - footY ps i mx my))

/-- Euclidean distance from the query point to an arbitrary point, used to
state the projector's properties. -/
def queryDist (mx my x0 y0 : ℝ) : ℝ :=
  Real.sqrt ((mx - x0) * (mx - x0) + (my - y0) * (my - y0))

/-- `pathDistance` before segment `i`: the source's inner loop
`for (j = 0; j < i; j++) pathDistance += sqrt(segDx² + segDy²)`. -/
def priorDist (ps : List Pt) (i : ℕ) : ℝ :=
  ∑ j ∈ Finset.range i, Real.sqrt (lenSq ps j)

/-- `totalDistance`: the same sum over every segment. -/
def pathTotal (ps : List Pt) : ℝ := priorDist ps (ps.length - 1)

/-- `closestProgress` computed when segment `i` wins:
`totalDistance > 0 ? (pathDistance + t*sqrt(lenSq)) / totalDistance : 0`. -/
def candProg (ps : List Pt) (i : ℕ) (mx my : ℝ) : ℝ :=
  if 0 < pathTotal ps then
    (priorDist ps i + tClamp ps i mx my * Real.sqrt (lenSq ps i)) / pathTotal ps
  else 0

open scoped Classical in
/-- One iteration of the source's scan.  The accumulator is `none` while
`closestDistance` is still `Infinity`, otherwise
`(closestDistance, closestPoint, closestProgress)`.  For a zero-length
segment the JavaScript quotient making up `t` is `NaN` (or `±Infinity`), so
`closestX/closestY` and `distance` are `NaN`, and `NaN < closestDistance` is
false: the segment can never become the running best.  The embedding makes
that skip explicit. -/
noncomputable def codeStep (ps : List Pt) (mx my : ℝ)
    (acc : Option (ℝ × (ℝ × ℝ) × ℝ)) (i : ℕ) : Option (ℝ × (ℝ × ℝ) × ℝ) :=
  if lenSq ps i = 0 then acc
  else
    match acc with
    | none =>
      some (candDist ps i mx my, (footX ps i mx my, footY ps i mx my),
        candProg ps i mx my)
    | some a =>
      if candDist ps i mx my < a.1 then
        some (candDist ps i mx my, (footX ps i mx my, footY ps i mx my),
          candProg ps i mx my)
      else acc

/-- The source's scan over every segment index. -/
def closestAcc (ps : List Pt) (mx my : ℝ) : Option (ℝ × (ℝ × ℝ) × ℝ) :=
  (List.range (ps.length - 1)).foldl (codeStep ps mx my) none

/-- `getClosestPointOnPath`: `null` for fewer than two points; otherwise run
the scan and return the best point and progress exactly when
`closestDistance < 50`. -/
def getClosestPointOnPath (ps : List Pt) (mx my : ℝ) :
    Option ((ℝ × ℝ) × ℝ) :=
  if ps.length < 2 then none
  else
    match closestAcc ps mx my with
    | some a => if a.1 < 50 then some (a.2.1, a.2.2) else none
    | none => none

open scoped Classical in
/-- Modelled from the spec's words (§4.4 and claim C7), for comparison with
`getClosestPointOnPath`: scan every segment left-to-right keeping the first
strictly-smaller distance (so the first-found wins on exact ties), return
`none` when fewer than 2 waypoints exist, when the total length is zero, or
when the winning distance is not below the 50-pixel threshold, and otherwise
return the winning foot point with progress
`(length of prior segments + t * winning segment length) / total length`. -/
noncomputable def specStep (ps : List Pt) (mx my : ℝ)
    (acc : Option (ℝ × ℕ)) (i : ℕ) : Option (ℝ × ℕ) :=
  match acc with
  | none => some (candDist ps i mx my, i)
  | some a =>
    if candDist ps i mx my < a.1 then some (candDist ps i mx my, i) else acc

/-- Modelled from the spec's words (§4.4 and claim C7), for comparison with
`getClosestPointOnPath`: scan every segment left-to-right keeping the first
strictly-smaller distance (so the first-found wins on exact ties), return
`none` when fewer than 2 waypoints exist, when the total length is zero, or
when the winning distance is not below the 50-pixel threshold, and otherwise
return the winning foot point with progress
`(length of prior segments + t * winning segment length) / total length`. -/
def projectSpec (ps : List Pt) (mx my : ℝ) : Option ((ℝ × ℝ) × ℝ) :=
  if ps.length < 2 then none
  else if pathTotal ps = 0 then none
  else
    match (List.range (ps.length - 1)).foldl (specStep ps mx my) none with
    | none => none
    | some a =>
      if a.1 < 50 then
        some ((footX ps a.2 mx my, footY ps a.2 mx my), candProg ps a.2 mx my)
      else none

/-! ## Theorems -/

/-- C5: on a loaded image the two coordinate transforms are exact inverses —
field-to-pixel followed by pixel-to-field is the identity on field
coordinates in `[-72, 72] × [-72, 72]`, and pixel-to-field followed by
field-to-pixel is the identity on pixel coordinates (exact under the real
arithmetic idealising floating point). -/
theorem c5_transform_roundtrip (w px py fx fy : ℝ)
    (h1 : -72 ≤ fx) (h2 : fx ≤ 72) (h3 : -72 ≤ fy) (h4 : fy ≤ 72) :
    pixelToFieldCoords w (fieldToPixelCoords w fx fy).1
        (fieldToPixelCoords w fx fy).2 = (fx, fy) ∧
    fieldToPixelCoords w (pixelToFieldCoords w px py).1
        (pixelToFieldCoords w px py).2 = (px, py) := by
  constructor <;>
  · simp only [pixelToFieldCoords, fieldToPixelCoords, Prod.mk.injEq]
    constructor <;> · field_simp; try ring

/-- C5 witness: the round trips at concrete inputs. -/
theorem c5_witness :
    (-72 ≤ (0 : ℝ)) ∧ ((0 : ℝ) ≤ 72) ∧
    (pixelToFieldCoords 2000 (fieldToPixelCoords 2000 0 0).1
        (fieldToPixelCoords 2000 0 0).2 = (0, 0) ∧
      fieldToPixelCoords 2000 (pixelToFieldCoords 2000 5 7).1
        (pixelToFieldCoords 2000 5 7).2 = (5, 7)) :=
  ⟨by norm_num, by norm_num,
    c5_transform_roundtrip 2000 5 7 0 0 (by norm_num) (by norm_num)
      (by norm_num) (by norm_num)⟩

/-- C9: applying "Flip X" twice is the identity on every waypoint — the
field position and the screen position (and all other fields) return to
their original values exactly, for every sequence and image height (exact
under the real arithmetic idealising floating point). -/
theorem c9_flipX_involutive (h : ℝ) (ps : List Pt) :
    flipXPoints h (flipXPoints h ps) = ps := by
  simp only [flipXPoints, List.map_map]
  have hcomp :
      ((fun p : Pt => { p with fieldY := -p.fieldY, y := -p.y + h }) ∘
        fun p : Pt => { p with fieldY := -p.fieldY, y := -p.y + h }) = id := by
    funext p
    ext <;> simp <;> ring
  rw [hcomp, List.map_id]

/-- C8 counterexample: importing the one-record sequence whose id is `-5`
sets the next-id counter to `0`, not to `max{-5} + 1 = -4` as the claim's
formula demands. -/
theorem c8_counterexample :
    (importRoute ([], 7) (.jsonArray [{ dfltPt with id := -5 }])).2 = 0 ∧
    ¬ ((importRoute ([], 7) (.jsonArray [{ dfltPt with id := -5 }])).2 = -5 + 1) := by
  constructor <;> simp [importRoute]

/-- C8 (amended): importing a non-sequence payload leaves the store and the
counter unchanged; importing a sequence replaces the store and sets the
counter to `max(ids) + 1` whenever the maximum id is at least `-1` (in
particular for the app's own non-negative ids), and to `0` for an empty
sequence (when every id is below `-1` the counter is clamped to `0` instead
of `max + 1`). -/
theorem c8_import (st : List Pt × ℤ) (qs : List Pt) :
    importRoute st .nonArray = st ∧
    (importRoute st (.jsonArray qs)).1 = qs ∧
    (importRoute st (.jsonArray [])).2 = 0 ∧
    (∀ m : ℤ, m ∈ qs.map Pt.id → (∀ k ∈ qs.map Pt.id, k ≤ m) → -1 ≤ m →
      (importRoute st (.jsonArray qs)).2 = m + 1) := by
  refine ⟨rfl, rfl, by simp [importRoute], ?_⟩
  intro m hm hub hge
  have upper : ∀ l : List ℤ, (∀ k ∈ l, k ≤ m) → l.foldr max (-1) ≤ m := by
    intro l
    induction l with
    | nil => intro _; simpa using hge
    | cons b l ihl =>
      intro hub'
      simp only [List.foldr]
      exact max_le (hub' b (by simp)) (ihl fun k hk => hub' k (by simp [hk]))
  have lower : ∀ l : List ℤ, m ∈ l → m ≤ l.foldr max (-1) := by
    intro l
    induction l with
    | nil => intro hm'; cases hm'
    | cons b l ihl =>
      intro hm'
      simp only [List.foldr]
      rcases List.mem_cons.mp hm' with h | h
      · exact h ▸ le_max_left _ _
      · exact le_trans (ihl h) (le_max_right _ _)
  have hfold : (qs.map Pt.id).foldr max (-1) = m :=
    le_antisymm (upper _ hub) (lower _ hm)
  simp only [importRoute]
  rw [hfold]

/-- C8 witness: importing ids `{3, 1}` over an existing state re-derives the
counter `3 + 1`. -/
theorem c8_witness :
    (importRoute ([], 9)
      (.jsonArray [{ dfltPt with id := 3 }, { dfltPt with id := 1 }])).2 = 3 + 1 :=
  (c8_import ([], 9) [{ dfltPt with id := 3 }, { dfltPt with id := 1 }]).2.2.2 3
    (by simp) (by intro k hk; simp at hk; rcases hk with h | h <;> omega)
    (by norm_num)

/-- C2 counterexample: the point at the field origin (screen `(1000, 1000)`
on the 2000-pixel image) satisfies the screen-synchronisation invariant, but
after a drag to mouse position `(1001, 1000)` it stores the raw screen x
`1001` together with the rounded field x `0.1`, whose transform is
`1001.3416…` — the invariant fails after the drag mutation. -/
theorem c2_counterexample :
    ScreenInv 2000 [⟨1000, 1000, 0, 0, 0, 0, 1000, 70, true⟩] ∧
    ¬ ScreenInv 2000 (handleMouseMoveDrag 2000
        [⟨1000, 1000, 0, 0, 0, 0, 1000, 70, true⟩] (some 0) 1001 1000) := by
  have hdrag : handleMouseMoveDrag 2000
      [⟨1000, 1000, 0, 0, 0, 0, 1000, 70, true⟩] (some 0) 1001 1000 =
      [⟨1001, 1000, 1 / 10, 0, 0, 0, 1000, 70, true⟩] := by
    have h1 : (pixelToFieldCoords 2000 1001 1000).1 = 12 / 161 := by
      simp only [pixelToFieldCoords]
      norm_num
    have h2 : (pixelToFieldCoords 2000 1001 1000).2 = 0 := by
      simp only [pixelToFieldCoords]
      norm_num
    have hr1 : round1 (12 / 161 : ℝ) = 1 / 10 := by
      have harg : ((12 : ℝ) / 161 * 10 + 1 / 2) = 401 / 322 := by norm_num
      simp only [round1, jsRound, harg]
      norm_num
    have hr2 : round1 (0 : ℝ) = 0 := by
      simp only [round1, jsRound]
      norm_num
    simp only [handleMouseMoveDrag, h1, h2, hr1, hr2]
    norm_num
  constructor
  · intro p hp
    simp only [List.mem_singleton] at hp
    subst hp
    constructor <;> · simp only [fieldToPixelCoords]; norm_num
  · intro H
    rw [hdrag] at H
    obtain ⟨hx, -⟩ := H ⟨1001, 1000, 1 / 10, 0, 0, 0, 1000, 70, true⟩ (by simp)
    simp only [fieldToPixelCoords] at hx
    norm_num at hx

/-- C2 (amended): the screen-synchronisation invariant is preserved by
waypoint placement (and by the click that merely selects), by coordinate
edits, and by both mirror operations (on a square image, `h = w`, as both
field images are); the drag mutation, however, stores the raw mouse position
as the screen position while rounding the field position, so the invariant
can fail after a drag (see the counterexample). -/
theorem c2_screen_sync (w h : ℝ) (ps : List Pt) (hinv : ScreenInv w ps)
    (hsq : h = w) :
    (∀ nid x y, ScreenInv w (handleCanvasClick w ps nid x y).1) ∧
    (∀ sid fx fy, ScreenInv w (updateSelectedPointFieldCoords w ps sid fx fy)) ∧
    ScreenInv w (flipXPoints h ps) ∧
    ScreenInv w (flipYPoints w ps) := by
  subst hsq
  refine ⟨?_, ?_, ?_, ?_⟩
  · intro nid x y
    cases hfind : ps.find? (fun p =>
        decide (Real.sqrt ((p.x - x) * (p.x - x) + (p.y - y) * (p.y - y)) <
          POINT_RADIUS)) with
    | some c => simpa only [handleCanvasClick, hfind] using hinv
    | none =>
      simp only [handleCanvasClick, hfind]
      intro p hp
      rcases List.mem_append.mp hp with hmem | hmem
      · exact hinv p hmem
      · simp only [List.mem_singleton] at hmem
        subst hmem
        exact ⟨rfl, rfl⟩
  · intro sid fx fy
    cases sid with
    | none => simpa only [updateSelectedPointFieldCoords] using hinv
    | some s =>
      simp only [updateSelectedPointFieldCoords]
      intro p hp
      rcases List.mem_map.mp hp with ⟨p0, hp0, rfl⟩
      by_cases hid : p0.id = s
      · simp only [hid, if_pos rfl]
        exact ⟨rfl, rfl⟩
      · simp only [if_neg hid]
        exact hinv p0 hp0
  · intro p hp
    rcases List.mem_map.mp hp with ⟨p0, hp0, rfl⟩
    obtain ⟨hx0, hy0⟩ := hinv p0 hp0
    simp only [fieldToPixelCoords] at hx0 hy0
    constructor
    · show p0.x = (fieldToPixelCoords h p0.fieldX (-p0.fieldY)).1
      simp only [fieldToPixelCoords]
      linarith
    · show -p0.y + h = (fieldToPixelCoords h p0.fieldX (-p0.fieldY)).2
      simp only [fieldToPixelCoords]
      linarith
  · intro p hp
    rcases List.mem_map.mp hp with ⟨p0, hp0, rfl⟩
    obtain ⟨hx0, hy0⟩ := hinv p0 hp0
    simp only [fieldToPixelCoords] at hx0 hy0
    constructor
    · show -p0.x + h = (fieldToPixelCoords h (-p0.fieldX) p0.fieldY).1
      simp only [fieldToPixelCoords]
      linarith
    · show p0.y = (fieldToPixelCoords h (-p0.fieldX) p0.fieldY).2
      simp only [fieldToPixelCoords]
      linarith

/-- C2 witness: the amended preservation statement at the concrete
one-point state on the 2000-pixel square image. -/
theorem c2_witness :
    ScreenInv 2000 [⟨1000, 1000, 0, 0, 0, 0, 1000, 70, true⟩] ∧
    ((2000 : ℝ) = 2000) ∧
    ((∀ nid x y, ScreenInv 2000
        (handleCanvasClick 2000 [⟨1000, 1000, 0, 0, 0, 0, 1000, 70, true⟩] nid x y).1) ∧
      (∀ sid fx fy, ScreenInv 2000 (updateSelectedPointFieldCoords 2000
        [⟨1000, 1000, 0, 0, 0, 0, 1000, 70, true⟩] sid fx fy)) ∧
      ScreenInv 2000 (flipXPoints 2000 [⟨1000, 1000, 0, 0, 0, 0, 1000, 70, true⟩]) ∧
      ScreenInv 2000 (flipYPoints 2000 [⟨1000, 1000, 0, 0, 0, 0, 1000, 70, true⟩])) := by
  have hinv : ScreenInv 2000 [⟨1000, 1000, 0, 0, 0, 0, 1000, 70, true⟩] := by
    intro p hp
    simp only [List.mem_singleton] at hp
    subst hp
    constructor <;> · simp only [fieldToPixelCoords]; norm_num
  exact ⟨hinv, rfl, c2_screen_sync 2000 2000 _ hinv rfl⟩

/-- C10: a placement click (no existing point within the 30-pixel radius)
appends exactly one waypoint: id is the current counter (then incremented),
field coordinates are the clicked field position rounded to one decimal, the
screen position is re-derived from the rounded field coordinates, the
defaults are `theta = 0`, `timeout = 1000`, `speed = 70`, `forwards = true`,
and the existing waypoints are untouched (the new point is also selected). -/
theorem c10_placement (w : ℝ) (ps : List Pt) (nid : ℤ) (x y : ℝ)
    (hfar : ∀ p ∈ ps,
      ¬ Real.sqrt ((p.x - x) * (p.x - x) + (p.y - y) * (p.y - y)) < POINT_RADIUS) :
    handleCanvasClick w ps nid x y =
      (ps ++ [{ x := (fieldToPixelCoords w (round1 (pixelToFieldCoords w x y).1)
                    (round1 (pixelToFieldCoords w x y).2)).1,
                y := (fieldToPixelCoords w (round1 (pixelToFieldCoords w x y).1)
                    (round1 (pixelToFieldCoords w x y).2)).2,
                fieldX := round1 (pixelToFieldCoords w x y).1,
                fieldY := round1 (pixelToFieldCoords w x y).2,
                id := nid, theta := 0, timeout := 1000, speed := 70,
                forwards := true }],
       nid + 1, some nid) := by
  have hfind : ps.find? (fun p =>
      decide (Real.sqrt ((p.x - x) * (p.x - x) + (p.y - y) * (p.y - y)) <
        POINT_RADIUS)) = none := by
    rw [List.find?_eq_none]
    intro p hp
    simpa using hfar p hp
  simp [handleCanvasClick, hfind]

/-- C10 witness: placing the first waypoint by clicking the field centre of
the 2000-pixel image. -/
theorem c10_witness :
    (∀ p ∈ ([] : List Pt),
      ¬ Real.sqrt ((p.x - 1000) * (p.x - 1000) + (p.y - 1000) * (p.y - 1000)) <
        POINT_RADIUS) ∧
    handleCanvasClick 2000 [] 0 1000 1000 =
      ([] ++ [{ x := (fieldToPixelCoords 2000 (round1 (pixelToFieldCoords 2000 1000 1000).1)
                    (round1 (pixelToFieldCoords 2000 1000 1000).2)).1,
                y := (fieldToPixelCoords 2000 (round1 (pixelToFieldCoords 2000 1000 1000).1)
                    (round1 (pixelToFieldCoords 2000 1000 1000).2)).2,
                fieldX := round1 (pixelToFieldCoords 2000 1000 1000).1,
                fieldY := round1 (pixelToFieldCoords 2000 1000 1000).2,
                id := 0, theta := 0, timeout := 1000, speed := 70,
                forwards := true }],
       1, some 0) := by
  have hf : ∀ p ∈ ([] : List Pt),
      ¬ Real.sqrt ((p.x - 1000) * (p.x - 1000) + (p.y - 1000) * (p.y - 1000)) <
        POINT_RADIUS := by simp
  exact ⟨hf, c10_placement 2000 [] 0 1000 1000 hf⟩

lemma genTailLines_length (i : ℤ) (rest : List Pt) :
    (genTailLines i rest).length = 3 * rest.length := by
  induction rest generalizing i with
  | nil => rfl
  | cons r rs ih =>
    simp only [genTailLines, List.length_cons, ih]
    ring

lemma genTailLines_getD (rest : List Pt) (i0 : ℤ) (k : ℕ) (hk : k < rest.length) :
    (genTailLines i0 rest).getD (3 * k) dfltCodeLine =
      { line := .blank, pointIndex := some (-1) } ∧
    (genTailLines i0 rest).getD (3 * k + 1) dfltCodeLine =
      { line := .turnToPoint (round1 (rest.getD k dfltPt).fieldX)
          (round1 (rest.getD k dfltPt).fieldY) (rest.getD k dfltPt).forwards
          (rest.getD k dfltPt).speed,
        pointIndex := some (i0 + k) } ∧
    (genTailLines i0 rest).getD (3 * k + 2) dfltCodeLine =
      { line := .moveToPoint (round1 (rest.getD k dfltPt).fieldX)
          (round1 (rest.getD k dfltPt).fieldY) (rest.getD k dfltPt).timeout
          (rest.getD k dfltPt).forwards (rest.getD k dfltPt).speed,
        pointIndex := some (i0 + k) } := by
  induction rest generalizing i0 k with
  | nil => exact absurd hk (by simp)
  | cons r rs ih =>
    cases k with
    | zero => simp [genTailLines]
    | succ k =>
      have hk' : k < rs.length := by
        simpa using Nat.lt_of_succ_lt_succ (by simpa using hk)
      obtain ⟨ihA, ihB, ihC⟩ := ih (i0 + 1) k hk'
      have hidx : i0 + 1 + (k : ℤ) = i0 + ((k : ℕ) + 1 : ℕ) := by push_cast; ring
      refine ⟨?_, ?_, ?_⟩
      · rw [show 3 * (k + 1) = 3 * k + 1 + 1 + 1 by ring]
        simp only [genTailLines, List.getD_cons_succ]
        exact ihA
      · rw [show 3 * (k + 1) + 1 = 3 * k + 1 + 1 + 1 + 1 by ring]
        simp only [genTailLines, List.getD_cons_succ]
        simpa [hidx] using ihB
      · rw [show 3 * (k + 1) + 2 = 3 * k + 2 + 1 + 1 + 1 by ring]
        simp only [genTailLines, List.getD_cons_succ]
        simpa [hidx] using ihC

/-- C4 counterexample: in the two-waypoint route the separator line (entry 1
of the emitted list) carries the sentinel index `-1` — it is not `null`
(`none`) as the claim states, and in particular the click guard
`pointIndex !== null` does not treat it as unmapped. -/
theorem c4_counterexample :
    ((generatedCodeLines [dfltPt, dfltPt]).getD 1 dfltCodeLine).pointIndex =
      some (-1) ∧
    ((generatedCodeLines [dfltPt, dfltPt]).getD 1 dfltCodeLine).pointIndex ≠
      none := by
  constructor <;> simp [generatedCodeLines, genTailLines]

/-- C4 (amended): for a non-empty sequence of `n` waypoints the emitted list
has exactly `1 + 3*(n-1)` entries; waypoint 0 contributes one initial-pose
line (rounded field coordinates and rounded effective heading, tagged index
0), and every subsequent waypoint `i` contributes a blank separator carrying
the sentinel index `-1` (not `null` as the claim stated) followed by a
turn-to-point line and a move-to-point line, both carrying the rounded field
coordinates, the waypoint's attributes, and tag `i`. -/
theorem c4_emitted_lines (ps : List Pt) (hne : ps ≠ []) :
    (generatedCodeLines ps).length = 1 + 3 * (ps.length - 1) ∧
    (generatedCodeLines ps).getD 0 dfltCodeLine =
      { line := .setPose (round1 (ps.getD 0 dfltPt).fieldX)
          (round1 (ps.getD 0 dfltPt).fieldY) (round1 (getEffectiveTheta ps 0)),
        pointIndex := some 0 } ∧
    ∀ i, 1 ≤ i → i < ps.length →
      (generatedCodeLines ps).getD (3 * i - 2) dfltCodeLine =
        { line := .blank, pointIndex := some (-1) } ∧
      (generatedCodeLines ps).getD (3 * i - 1) dfltCodeLine =
        { line := .turnToPoint (round1 (ps.getD i dfltPt).fieldX)
            (round1 (ps.getD i dfltPt).fieldY) (ps.getD i dfltPt).forwards
            (ps.getD i dfltPt).speed,
          pointIndex := some (i : ℤ) } ∧
      (generatedCodeLines ps).getD (3 * i) dfltCodeLine =
        { line := .moveToPoint (round1 (ps.getD i dfltPt).fieldX)
            (round1 (ps.getD i dfltPt).fieldY) (ps.getD i dfltPt).timeout
            (ps.getD i dfltPt).forwards (ps.getD i dfltPt).speed,
          pointIndex := some (i : ℤ) } := by
  obtain ⟨p, rest, rfl⟩ := List.exists_cons_of_ne_nil hne
  refine ⟨?_, ?_, ?_⟩
  · simp only [generatedCodeLines, List.length_cons, genTailLines_length]
    omega
  · simp [generatedCodeLines]
  · intro i h1 h2
    obtain ⟨k, rfl⟩ : ∃ k, i = k + 1 := ⟨i - 1, by omega⟩
    have hk : k < rest.length := by
      simp only [List.length_cons] at h2
      omega
    obtain ⟨ihA, ihB, ihC⟩ := genTailLines_getD rest 1 k hk
    have hcast : (1 : ℤ) + (k : ℤ) = ((k + 1 : ℕ) : ℤ) := by push_cast; ring
    refine ⟨?_, ?_, ?_⟩
    · rw [show 3 * (k + 1) - 2 = 3 * k + 1 by omega]
      simp only [generatedCodeLines, List.getD_cons_succ]
      exact ihA
    · rw [show 3 * (k + 1) - 1 = 3 * k + 1 + 1 by omega]
      simp only [generatedCodeLines, List.getD_cons_succ]
      rw [← hcast]
      exact ihB
    · rw [show 3 * (k + 1) = 3 * k + 2 + 1 by omega]
      simp only [generatedCodeLines, List.getD_cons_succ]
      rw [← hcast]
      exact ihC

/-- C4 witness: the two-waypoint route emits `1 + 3*(2-1) = 4` lines. -/
theorem c4_witness :
    (([dfltPt, dfltPt] : List Pt) ≠ []) ∧
    (generatedCodeLines [dfltPt, dfltPt]).length = 4 := by
  refine ⟨by simp, ?_⟩
  have hlen := (c4_emitted_lines [dfltPt, dfltPt] (by simp)).1
  simpa using hlen

lemma addTo0_of_nonneg {d : ℝ} (h : 0 ≤ d) : addTo0 d = d := by
  rw [addTo0]
  simp [not_lt.mpr h]

lemma addTo0_of_neg {d : ℝ} (h1 : d < 0) (h2 : -360 ≤ d) : addTo0 d = d + 360 := by
  rw [addTo0]
  simp only [dif_pos h1]
  exact addTo0_of_nonneg (by linarith)

lemma subTo360_of_lt {d : ℝ} (h : d < 360) : subTo360 d = d := by
  rw [subTo360]
  simp [not_le.mpr h]

lemma atan2_zero_pos {x : ℝ} (hx : 0 < x) : atan2 0 x = 0 := by
  have hz : (⟨x, 0⟩ : ℂ) = ((x : ℝ) : ℂ) := by
    apply Complex.ext <;> simp
  rw [atan2, hz]
  exact Complex.arg_ofReal_of_nonneg hx.le

lemma atan2_zero_neg {x : ℝ} (hx : x < 0) : atan2 0 x = Real.pi := by
  have hz : (⟨x, 0⟩ : ℂ) = ((x : ℝ) : ℂ) := by
    apply Complex.ext <;> simp
  rw [atan2, hz]
  exact Complex.arg_ofReal_of_neg hx

lemma atan2_pos_zero {y : ℝ} (hy : 0 < y) : atan2 y 0 = Real.pi / 2 := by
  have hz : (⟨0, y⟩ : ℂ) = ((y : ℝ) : ℂ) * Complex.I := by
    apply Complex.ext <;> simp
  rw [atan2, hz, Complex.arg_real_mul _ hy, Complex.arg_I]

lemma atan2_neg_zero {y : ℝ} (hy : y < 0) : atan2 y 0 = -(Real.pi / 2) := by
  have hz : (⟨0, y⟩ : ℂ) = ((-y : ℝ) : ℂ) * (-Complex.I) := by
    apply Complex.ext <;> simp
  rw [atan2, hz, Complex.arg_real_mul _ (by linarith : (0:ℝ) < -y),
    Complex.arg_neg_I]

/-- The source's conversion-and-normalisation of an `atan2` result lands in
`[0, 360)`. -/
lemma normDeg_bounds {θ : ℝ} (h1 : -Real.pi < θ) (h2 : θ ≤ Real.pi) :
    0 ≤ subTo360 (addTo0 ((θ + Real.pi / 2) * 180 / Real.pi)) ∧
    subTo360 (addTo0 ((θ + Real.pi / 2) * 180 / Real.pi)) < 360 := by
  have hπ := Real.pi_pos
  set d := (θ + Real.pi / 2) * 180 / Real.pi with hd
  have hlb : -90 < d := by
    rw [hd, lt_div_iff₀ hπ]
    nlinarith
  have hub : d ≤ 270 := by
    rw [hd, div_le_iff₀ hπ]
    nlinarith
  by_cases hneg : d < 0
  · rw [addTo0_of_neg hneg (by linarith), subTo360_of_lt (by linarith)]
    constructor <;> linarith
  · push_neg at hneg
    rw [addTo0_of_nonneg hneg, subTo360_of_lt (by linarith)]
    exact ⟨hneg, by linarith⟩

/-- C3 counterexample: a stored heading of exactly `360` — reachable through
the heading editor, whose maximum is the inclusive `360`, or through import —
is returned unchanged by `getEffectiveTheta` at the last index, so the
claimed codomain `[0, 360)` fails there. -/
theorem c3_counterexample :
    getEffectiveTheta [{ dfltPt with theta := 360 }] 0 = 360 ∧
    ¬ (getEffectiveTheta [{ dfltPt with theta := 360 }] 0 < 360) := by
  have h : getEffectiveTheta [{ dfltPt with theta := 360 }] 0 = 360 := by
    simp [getEffectiveTheta]
  exact ⟨h, by rw [h]; norm_num⟩

/-- C3 (amended): for every non-last index the effective heading lies in
`[0, 360)`, with a successor directly above (in screen space) giving `0`,
directly right `90`, directly below `180`, and directly left `270`; the last
index returns the stored `theta` unchanged, which therefore lies in
`[0, 360)` only when the stored value does (the editor admits the inclusive
bound `360`, and import is unconstrained). -/
theorem c3_effective_theta (ps : List Pt) (i : ℕ) (hi : i < ps.length) :
    (i < ps.length - 1 →
      (0 ≤ getEffectiveTheta ps i ∧ getEffectiveTheta ps i < 360) ∧
      (segDx ps i = 0 → segDy ps i < 0 → getEffectiveTheta ps i = 0) ∧
      (segDy ps i = 0 → 0 < segDx ps i → getEffectiveTheta ps i = 90) ∧
      (segDx ps i = 0 → 0 < segDy ps i → getEffectiveTheta ps i = 180) ∧
      (segDy ps i = 0 → segDx ps i < 0 → getEffectiveTheta ps i = 270)) ∧
    (¬ i < ps.length - 1 → getEffectiveTheta ps i = (ps.getD i dfltPt).theta) := by
  constructor
  · intro hlt
    have hsh : getEffectiveTheta ps i =
        subTo360 (addTo0
          ((atan2 (segDy ps i) (segDx ps i) + Real.pi / 2) * 180 / Real.pi)) := by
      simp only [getEffectiveTheta, if_pos hlt]
      rfl
    rw [hsh]
    have hπ := Real.pi_pos
    refine ⟨?_, ?_, ?_, ?_, ?_⟩
    · exact normDeg_bounds (Complex.neg_pi_lt_arg _) (Complex.arg_le_pi _)
    · intro hdx hdy
      rw [hdx, atan2_neg_zero hdy,
        show (-(Real.pi / 2) + Real.pi / 2) * 180 / Real.pi = 0 by ring,
        addTo0_of_nonneg le_rfl, subTo360_of_lt (by norm_num)]
    · intro hdy hdx
      rw [hdy, atan2_zero_pos hdx,
        show ((0 : ℝ) + Real.pi / 2) * 180 / Real.pi = 90 by
          field_simp
          ring,
        addTo0_of_nonneg (by norm_num), subTo360_of_lt (by norm_num)]
    · intro hdx hdy
      rw [hdx, atan2_pos_zero hdy,
        show (Real.pi / 2 + Real.pi / 2) * 180 / Real.pi = 180 by
          field_simp,
        addTo0_of_nonneg (by norm_num), subTo360_of_lt (by norm_num)]
    · intro hdy hdx
      rw [hdy, atan2_zero_neg hdx,
        show (Real.pi + Real.pi / 2) * 180 / Real.pi = 270 by
          field_simp
          ring,
        addTo0_of_nonneg (by norm_num), subTo360_of_lt (by norm_num)]
  · intro hge
    simp only [getEffectiveTheta, if_neg hge]

/-- C3 witness: in a two-waypoint route whose successor lies directly above
in screen space the effective heading of waypoint 0 is `0`. -/
theorem c3_witness :
    (0 < ([⟨0, 0, 0, 0, 0, 0, 0, 0, true⟩,
        ⟨0, -5, 0, 0, 1, 0, 0, 0, true⟩] : List Pt).length) ∧
    getEffectiveTheta [⟨0, 0, 0, 0, 0, 0, 0, 0, true⟩,
        ⟨0, -5, 0, 0, 1, 0, 0, 0, true⟩] 0 = 0 := by
  refine ⟨by norm_num, ?_⟩
  have h := (c3_effective_theta [⟨0, 0, 0, 0, 0, 0, 0, 0, true⟩,
      ⟨0, -5, 0, 0, 1, 0, 0, 0, true⟩] 0 (by norm_num)).1 (by norm_num)
  exact h.2.1 (by simp [segDx, segB, segA]) (by norm_num [segDy, segB, segA])

/-! ### Sampler lemmas -/

lemma segLen_nonneg (p q : Pt) : 0 ≤ segLen p q := Real.sqrt_nonneg _

lemma segLen_eq_zero {p q : Pt} (h : segLen p q = 0) : q.x = p.x ∧ q.y = p.y := by
  have hs : (q.x - p.x) * (q.x - p.x) + (q.y - p.y) * (q.y - p.y) ≤ 0 :=
    Real.sqrt_eq_zero'.mp h
  have h1 : (q.x - p.x) * (q.x - p.x) = 0 := by
    nlinarith [mul_self_nonneg (q.x - p.x), mul_self_nonneg (q.y - p.y)]
  have h2 : (q.y - p.y) * (q.y - p.y) = 0 := by
    nlinarith [mul_self_nonneg (q.x - p.x), mul_self_nonneg (q.y - p.y)]
  constructor
  · have := mul_self_eq_zero.mp h1; linarith
  · have := mul_self_eq_zero.mp h2; linarith

lemma priorLen_nonneg (ps : List Pt) (k : ℕ) : 0 ≤ priorLen ps k := by
  induction ps generalizing k with
  | nil => cases k <;> simp [priorLen]
  | cons p rest ih =>
    cases rest with
    | nil => cases k <;> simp [priorLen]
    | cons q rest2 =>
      cases k with
      | zero => simp [priorLen]
      | succ k =>
        simp only [priorLen]
        have h1 := segLen_nonneg p q
        have h2 := ih k
        linarith

lemma priorLen_zero_eq (ps : List Pt) (k : ℕ) (hk : k + 1 ≤ ps.length)
    (h0 : priorLen ps k = 0) :
    (ps.getD k dfltPt).x = (ps.getD 0 dfltPt).x ∧
    (ps.getD k dfltPt).y = (ps.getD 0 dfltPt).y := by
  induction ps generalizing k with
  | nil => simp at hk
  | cons p rest ih =>
    cases k with
    | zero => exact ⟨rfl, rfl⟩
    | succ k =>
      cases rest with
      | nil => simp at hk
      | cons q rest2 =>
        simp only [priorLen] at h0
        have hs := segLen_nonneg p q
        have hp := priorLen_nonneg (q :: rest2) k
        have hseg : segLen p q = 0 := by linarith
        have hrest : priorLen (q :: rest2) k = 0 := by linarith
        have hk' : k + 1 ≤ (q :: rest2 : List Pt).length := by
          simp only [List.length_cons] at hk ⊢
          omega
        obtain ⟨hx, hy⟩ := ih k hk' hrest
        obtain ⟨hqx, hqy⟩ := segLen_eq_zero hseg
        simp only [List.getD_cons_succ, List.getD_cons_zero] at hx hy ⊢
        exact ⟨by rw [hx]; exact hqx, by rw [hy]; exact hqy⟩

lemma segsOf_cons2 (p q : Pt) (rest : List Pt) :
    segsOf (p :: q :: rest) = (p, q) :: segsOf (q :: rest) := rfl

lemma sumLens_cons (s : Pt × Pt) (l : List (Pt × Pt)) :
    sumLens (s :: l) = segLen s.1 s.2 + sumLens l := by
  simp [sumLens]

lemma totalLen_cons2 (p q : Pt) (rest : List Pt) :
    totalLen (p :: q :: rest) = segLen p q + totalLen (q :: rest) := by
  rw [totalLen, segsOf_cons2, sumLens_cons]
  rfl

lemma totalLen_nonneg (ps : List Pt) : 0 ≤ totalLen ps := by
  simp only [totalLen, sumLens]
  apply List.sum_nonneg
  intro a ha
  rcases List.mem_map.mp ha with ⟨s, -, rfl⟩
  exact segLen_nonneg _ _

lemma totalLen_eq_priorLen (ps : List Pt) :
    totalLen ps = priorLen ps (ps.length - 1) := by
  induction ps with
  | nil => simp [totalLen, segsOf, sumLens, priorLen]
  | cons p rest ih =>
    cases rest with
    | nil => simp [totalLen, segsOf, sumLens, priorLen]
    | cons q rest2 =>
      rw [totalLen_cons2, ih,
        show (p :: q :: rest2 : List Pt).length - 1 =
          ((q :: rest2 : List Pt).length - 1) + 1 from by simp]
      simp only [priorLen]

lemma segsOf_ne_nil {ps : List Pt} (h : 2 ≤ ps.length) : segsOf ps ≠ [] := by
  match ps, h with
  | p :: q :: rest, _ => simp [segsOf_cons2]

/-- The sampler's walk, evaluated at a strictly positive cumulative length of
the first `k` segments (measured from an arbitrary starting offset `cur`),
fires on a positive-length segment and returns the `k`-th waypoint's screen
position together with the `atan2` direction of one of the path's
segments. -/
lemma sampleWalk_priorLen (ps : List Pt) (k : ℕ) (cur : ℝ)
    (h2 : 2 ≤ ps.length) (hk : k + 1 ≤ ps.length)
    (hpos : 0 < priorLen ps k) :
    ∃ i, i + 1 < ps.length ∧
      sampleWalk (segsOf ps) (cur + priorLen ps k) cur =
        some (.num (ps.getD k dfltPt).x, .num (ps.getD k dfltPt).y,
          atan2 ((ps.getD (i + 1) dfltPt).y - (ps.getD i dfltPt).y)
                ((ps.getD (i + 1) dfltPt).x - (ps.getD i dfltPt).x)) := by
  induction ps generalizing k cur with
  | nil => simp at h2
  | cons p rest ih =>
    cases rest with
    | nil => simp at h2
    | cons q rest2 =>
      cases k with
      | zero =>
        simp [priorLen] at hpos
      | succ k =>
        simp only [priorLen] at hpos
        simp only [priorLen, segsOf_cons2, sampleWalk]
        have hL : 0 ≤ segLen p q := segLen_nonneg p q
        have hPn : 0 ≤ priorLen (q :: rest2) k := priorLen_nonneg _ _
        by_cases hP0 : priorLen (q :: rest2) k = 0
        · rw [if_pos (show cur + segLen p q ≥
              cur + (segLen p q + priorLen (q :: rest2) k) from by
            rw [hP0]; linarith)]
          have hL0 : ¬ segLen p q = 0 := by
            intro h0
            rw [h0, hP0] at hpos
            norm_num at hpos
          rw [if_neg hL0]
          have hkq : k + 1 ≤ (q :: rest2 : List Pt).length := by
            simp only [List.length_cons] at hk ⊢
            omega
          obtain ⟨hcx, hcy⟩ := priorLen_zero_eq (q :: rest2) k hkq hP0
          refine ⟨0, by simp, ?_⟩
          simp only [List.getD_cons_succ, List.getD_cons_zero] at hcx hcy ⊢
          rw [hP0, add_zero]
          have ht : (cur + segLen p q - cur) / segLen p q = 1 := by
            field_simp
          rw [ht]
          simp only [mul_one, Option.some.injEq, Prod.mk.injEq,
            NumOrNaN.num.injEq]
          refine ⟨?_, ?_, trivial⟩
          · rw [hcx]; ring
          · rw [hcy]; ring
        · have hPpos : 0 < priorLen (q :: rest2) k :=
            lt_of_le_of_ne hPn (Ne.symm hP0)
          rw [if_neg (show ¬ (cur + segLen p q ≥
              cur + (segLen p q + priorLen (q :: rest2) k)) from by
            push_neg
            linarith)]
          have hk1 : 1 ≤ k := by
            by_contra hcon
            push_neg at hcon
            interval_cases k
            simp [priorLen] at hP0
          have h2' : 2 ≤ (q :: rest2 : List Pt).length := by
            simp only [List.length_cons] at hk ⊢
            omega
          have hkq : k + 1 ≤ (q :: rest2 : List Pt).length := by
            simp only [List.length_cons] at hk ⊢
            omega
          obtain ⟨i, hi, hw⟩ := ih k (cur + segLen p q) h2' hkq hPpos
          refine ⟨i + 1, by
            simp only [List.length_cons] at hi ⊢
            omega, ?_⟩
          rw [show cur + (segLen p q + priorLen (q :: rest2) k) =
            (cur + segLen p q) + priorLen (q :: rest2) k from by ring]
          simp only [List.getD_cons_succ]
          exact hw

/-- At a target equal to the current offset (the situation of progress 0)
the walk fires immediately on the first segment; with a positive-length
first segment the returned position is the first waypoint. -/
lemma sampleWalk_start_pos (ps : List Pt) (cur : ℝ) (h2 : 2 ≤ ps.length)
    (hL : segLen (ps.getD 0 dfltPt) (ps.getD 1 dfltPt) ≠ 0) :
    sampleWalk (segsOf ps) cur cur =
      some (.num (ps.getD 0 dfltPt).x, .num (ps.getD 0 dfltPt).y,
        atan2 ((ps.getD 1 dfltPt).y - (ps.getD 0 dfltPt).y)
              ((ps.getD 1 dfltPt).x - (ps.getD 0 dfltPt).x)) := by
  match ps, h2 with
  | p :: q :: rest, _ =>
    simp only [List.getD_cons_zero, List.getD_cons_succ] at hL ⊢
    simp only [segsOf_cons2, sampleWalk]
    rw [if_pos (show cur + segLen p q ≥ cur from by
      linarith [segLen_nonneg p q]), if_neg hL]
    simp

/-- With a zero-length first segment the walk fired at the current offset
divides by zero and returns the `NaN` position. -/
lemma sampleWalk_start_nan (ps : List Pt) (cur : ℝ) (h2 : 2 ≤ ps.length)
    (hL : segLen (ps.getD 0 dfltPt) (ps.getD 1 dfltPt) = 0) :
    sampleWalk (segsOf ps) cur cur =
      some (.nan, .nan,
        atan2 ((ps.getD 1 dfltPt).y - (ps.getD 0 dfltPt).y)
              ((ps.getD 1 dfltPt).x - (ps.getD 0 dfltPt).x)) := by
  match ps, h2 with
  | p :: q :: rest, _ =>
    simp only [List.getD_cons_zero, List.getD_cons_succ] at hL ⊢
    simp only [segsOf_cons2, sampleWalk]
    rw [if_pos (show cur + segLen p q ≥ cur from by
      linarith [segLen_nonneg p q]), if_pos hL]

/-- The instrumented walk returns exactly the target distance whenever the
target lies strictly above the starting offset and within the total
remaining length (the firing segment then has positive length). -/
lemma travelWalk_exact (segs : List (Pt × Pt)) :
    ∀ target cur : ℝ, segs ≠ [] → cur < target → target ≤ cur + sumLens segs →
      travelWalk segs target cur = some (.num target) := by
  induction segs with
  | nil => intro target cur h _ _; exact absurd rfl h
  | cons s rest ih =>
    intro target cur _ hlt hub
    obtain ⟨p, q⟩ := s
    rw [sumLens_cons] at hub
    simp only [travelWalk]
    by_cases hcond : cur + segLen p q ≥ target
    · rw [if_pos hcond]
      have hL : ¬ segLen p q = 0 := by
        intro h0
        rw [h0] at hcond
        linarith
      rw [if_neg hL]
      have hval : cur + segLen p q * ((target - cur) / segLen p q) = target := by
        rw [mul_comm, div_mul_cancel₀ _ hL]
        ring
      rw [hval]
    · rw [if_neg hcond]
      push_neg at hcond
      rcases rest with - | ⟨s2, rest2⟩
      · exfalso
        simp only [sumLens, List.map_nil, List.sum_nil] at hub
        linarith
      · exact ih target (cur + segLen p q) (by simp) hcond (by linarith)

/-- At a target equal to the current offset, the instrumented walk returns
the offset when the first segment has positive length. -/
lemma travelWalk_start_pos (ps : List Pt) (cur : ℝ) (h2 : 2 ≤ ps.length)
    (hL : segLen (ps.getD 0 dfltPt) (ps.getD 1 dfltPt) ≠ 0) :
    travelWalk (segsOf ps) cur cur = some (.num cur) := by
  match ps, h2 with
  | p :: q :: rest, _ =>
    simp only [List.getD_cons_zero, List.getD_cons_succ] at hL
    simp only [segsOf_cons2, travelWalk]
    rw [if_pos (show cur + segLen p q ≥ cur from by
      linarith [segLen_nonneg p q]), if_neg hL]
    simp

/-- With a zero-length first segment the instrumented walk fired at the
current offset returns `NaN`. -/
lemma travelWalk_start_nan (ps : List Pt) (cur : ℝ) (h2 : 2 ≤ ps.length)
    (hL : segLen (ps.getD 0 dfltPt) (ps.getD 1 dfltPt) = 0) :
    travelWalk (segsOf ps) cur cur = some .nan := by
  match ps, h2 with
  | p :: q :: rest, _ =>
    simp only [List.getD_cons_zero, List.getD_cons_succ] at hL
    simp only [segsOf_cons2, travelWalk]
    rw [if_pos (show cur + segLen p q ≥ cur from by
      linarith [segLen_nonneg p q]), if_pos hL]

/-- A zero cumulative length over at least one leading segment forces the
first segment's length to zero. -/
lemma segLen_head_of_priorLen_zero (ps : List Pt) (k : ℕ) (hk1 : 1 ≤ k)
    (hk : k + 1 ≤ ps.length) (h0 : priorLen ps k = 0) :
    segLen (ps.getD 0 dfltPt) (ps.getD 1 dfltPt) = 0 := by
  match ps, k, hk1 with
  | [], k' + 1, _ =>
    simp at hk
  | [p], k' + 1, _ =>
    simp only [List.length_cons, List.length_nil] at hk
    omega
  | p :: q :: rest, k' + 1, _ =>
    simp only [priorLen] at h0
    have h1 := segLen_nonneg p q
    have h2 := priorLen_nonneg (q :: rest) k'
    simp only [List.getD_cons_zero, List.getD_cons_succ]
    linarith

lemma totalLen_pair (p q : Pt) : totalLen [p, q] = segLen p q := by
  simp [totalLen, segsOf, sumLens]

lemma atan2_zero_zero : atan2 0 0 = 0 := by
  have hz : (⟨0, 0⟩ : ℂ) = 0 := by
    apply Complex.ext <;> simp
  rw [atan2, hz, Complex.arg_zero]

/-- C1 counterexample: on the straight two-waypoint route from screen
`(0, 0)` to `(100, 0)` with stored final heading `0`, sampling at progress 1
returns the segment's `atan2` direction `0`, not the claimed conversion
`(0 - 90)·π/180 = -π/2` of the stored heading: the loop's `>=` comparison
already fires on the last segment at progress exactly 1, so the fall-through
conversion branch is not reached. -/
theorem c1_counterexample :
    getRobotPositionAndRotation
        [⟨0, 0, 0, 0, 0, 0, 0, 0, true⟩, ⟨100, 0, 0, 0, 1, 0, 0, 0, true⟩] 1 ≠
      some (.num 100, .num 0, (0 - 90) * (Real.pi / 180)) := by
  have hseg : segLen (⟨0, 0, 0, 0, 0, 0, 0, 0, true⟩ : Pt)
      ⟨100, 0, 0, 0, 1, 0, 0, 0, true⟩ = 100 := by
    simp only [segLen]
    norm_num
    rw [show (10000 : ℝ) = 100 ^ 2 by norm_num,
      Real.sqrt_sq (by norm_num : (0:ℝ) ≤ 100)]
  have htot : totalLen
      [⟨0, 0, 0, 0, 0, 0, 0, 0, true⟩, ⟨100, 0, 0, 0, 1, 0, 0, 0, true⟩] = 100 := by
    rw [totalLen_pair, hseg]
  have hwalk : sampleWalk (segsOf
      [⟨0, 0, 0, 0, 0, 0, 0, 0, true⟩, ⟨100, 0, 0, 0, 1, 0, 0, 0, true⟩])
      (totalLen [⟨0, 0, 0, 0, 0, 0, 0, 0, true⟩, ⟨100, 0, 0, 0, 1, 0, 0, 0, true⟩] * 1)
      0 = some (.num 100, .num 0, 0) := by
    rw [htot, show segsOf
      [(⟨0, 0, 0, 0, 0, 0, 0, 0, true⟩ : Pt), ⟨100, 0, 0, 0, 1, 0, 0, 0, true⟩] =
      [((⟨0, 0, 0, 0, 0, 0, 0, 0, true⟩ : Pt), (⟨100, 0, 0, 0, 1, 0, 0, 0, true⟩ : Pt))]
      from rfl]
    simp only [sampleWalk, hseg]
    rw [if_pos (by norm_num : (0:ℝ) + 100 ≥ 100 * 1),
      if_neg (by norm_num : ¬ (100:ℝ) = 0)]
    have hrot : atan2 ((0:ℝ) - 0) (100 - 0) = 0 := by
      norm_num
      exact atan2_zero_pos (by norm_num)
    rw [hrot]
    norm_num
  have hval : getRobotPositionAndRotation
      [⟨0, 0, 0, 0, 0, 0, 0, 0, true⟩, ⟨100, 0, 0, 0, 1, 0, 0, 0, true⟩] 1 =
      some (.num 100, .num 0, 0) := by
    simp only [getRobotPositionAndRotation, List.length_cons, List.length_nil]
    rw [if_neg (by norm_num), if_neg (by rw [htot]; norm_num), hwalk]
  intro h
  rw [hval] at h
  simp only [Option.some.injEq, Prod.mk.injEq] at h
  obtain ⟨-, -, h3⟩ := h
  have hπ := Real.pi_pos
  ring_nf at h3
  linarith

/-- C1 (amended): for a route of at least two waypoints with non-zero total
length, sampling at progress 0 returns the first waypoint's screen position
when the first segment has non-zero length, and a `NaN` position (the
division `0/0` of the JS code) when the first segment has zero length;
sampling at progress 1 returns the last waypoint's screen position together
with the `atan2` direction of one of the path's segments — not the
stored-heading conversion of the claim, which is only reached when the
target distance strictly exceeds the total length (progress beyond 1). -/
theorem c1_sampler_boundary (ps : List Pt) (h2 : 2 ≤ ps.length)
    (hT : totalLen ps ≠ 0) :
    (segLen (ps.getD 0 dfltPt) (ps.getD 1 dfltPt) ≠ 0 →
      ∃ r, getRobotPositionAndRotation ps 0 =
        some (.num (ps.getD 0 dfltPt).x, .num (ps.getD 0 dfltPt).y, r)) ∧
    (segLen (ps.getD 0 dfltPt) (ps.getD 1 dfltPt) = 0 →
      ∃ r, getRobotPositionAndRotation ps 0 = some (.nan, .nan, r)) ∧
    (∃ i, i + 1 < ps.length ∧
      getRobotPositionAndRotation ps 1 =
        some (.num (ps.getD (ps.length - 1) dfltPt).x,
          .num (ps.getD (ps.length - 1) dfltPt).y,
          atan2 ((ps.getD (i + 1) dfltPt).y - (ps.getD i dfltPt).y)
                ((ps.getD (i + 1) dfltPt).x - (ps.getD i dfltPt).x))) := by
  have hnotlt : ¬ ps.length < 2 := by omega
  refine ⟨?_, ?_, ?_⟩
  · intro hL
    refine ⟨atan2 ((ps.getD 1 dfltPt).y - (ps.getD 0 dfltPt).y)
      ((ps.getD 1 dfltPt).x - (ps.getD 0 dfltPt).x), ?_⟩
    simp only [getRobotPositionAndRotation, if_neg hnotlt, if_neg hT]
    rw [mul_zero, sampleWalk_start_pos ps 0 h2 hL]
  · intro hL
    refine ⟨atan2 ((ps.getD 1 dfltPt).y - (ps.getD 0 dfltPt).y)
      ((ps.getD 1 dfltPt).x - (ps.getD 0 dfltPt).x), ?_⟩
    simp only [getRobotPositionAndRotation, if_neg hnotlt, if_neg hT]
    rw [mul_zero, sampleWalk_start_nan ps 0 h2 hL]
  · have hppos : 0 < priorLen ps (ps.length - 1) := by
      rw [← totalLen_eq_priorLen]
      exact lt_of_le_of_ne (totalLen_nonneg ps) (Ne.symm hT)
    obtain ⟨i, hi, hw⟩ := sampleWalk_priorLen ps (ps.length - 1) 0 h2
      (by omega) hppos
    refine ⟨i, hi, ?_⟩
    simp only [getRobotPositionAndRotation, if_neg hnotlt, if_neg hT]
    have htar : totalLen ps * 1 = 0 + priorLen ps (ps.length - 1) := by
      rw [mul_one, zero_add, totalLen_eq_priorLen]
    rw [htar, hw]

/-- C1 witness: the amended boundary property on the concrete straight
two-waypoint route, whose first segment has the non-zero length 100. -/
theorem c1_witness :
    (2 ≤ ([⟨0, 0, 0, 0, 0, 0, 0, 0, true⟩,
      ⟨100, 0, 0, 0, 1, 0, 0, 0, true⟩] : List Pt).length) ∧
    totalLen [⟨0, 0, 0, 0, 0, 0, 0, 0, true⟩,
      ⟨100, 0, 0, 0, 1, 0, 0, 0, true⟩] ≠ 0 ∧
    segLen (⟨0, 0, 0, 0, 0, 0, 0, 0, true⟩ : Pt)
      ⟨100, 0, 0, 0, 1, 0, 0, 0, true⟩ ≠ 0 ∧
    (∃ r, getRobotPositionAndRotation
      [⟨0, 0, 0, 0, 0, 0, 0, 0, true⟩, ⟨100, 0, 0, 0, 1, 0, 0, 0, true⟩] 0 =
      some (.num 0, .num 0, r)) := by
  have hseg : segLen (⟨0, 0, 0, 0, 0, 0, 0, 0, true⟩ : Pt)
      ⟨100, 0, 0, 0, 1, 0, 0, 0, true⟩ = 100 := by
    simp only [segLen]
    norm_num
    rw [show (10000 : ℝ) = 100 ^ 2 by norm_num,
      Real.sqrt_sq (by norm_num : (0:ℝ) ≤ 100)]
  have hT : totalLen [⟨0, 0, 0, 0, 0, 0, 0, 0, true⟩,
      ⟨100, 0, 0, 0, 1, 0, 0, 0, true⟩] ≠ 0 := by
    rw [totalLen_pair, hseg]
    norm_num
  have hLne : segLen (([⟨0, 0, 0, 0, 0, 0, 0, 0, true⟩,
        ⟨100, 0, 0, 0, 1, 0, 0, 0, true⟩] : List Pt).getD 0 dfltPt)
      (([⟨0, 0, 0, 0, 0, 0, 0, 0, true⟩,
        ⟨100, 0, 0, 0, 1, 0, 0, 0, true⟩] : List Pt).getD 1 dfltPt) ≠ 0 := by
    simp only [List.getD_cons_zero, List.getD_cons_succ]
    rw [hseg]
    norm_num
  have h := (c1_sampler_boundary
    [⟨0, 0, 0, 0, 0, 0, 0, 0, true⟩, ⟨100, 0, 0, 0, 1, 0, 0, 0, true⟩]
    (by norm_num) hT).1 hLne
  refine ⟨by norm_num, hT, by rw [hseg]; norm_num, by simpa using h⟩

/-- C6 counterexample: on the three-waypoint route whose first two waypoints
coincide at `(0, 0)` (a zero-length first segment) followed by `(100, 0)`,
the total length is `100 ≠ 0`, yet sampling at progress 0 divides `0/0` and
returns the `NaN` position — not the first waypoint `(0, 0)` for any
rotation — and the travelled distance at progress 0 is likewise `NaN`, so
neither the monotonicity of the distance from progress 0 nor continuity of
the position at the zero-cumulative-length boundary holds as claimed. -/
theorem c6_counterexample :
    getRobotPositionAndRotation
        [⟨0, 0, 0, 0, 0, 0, 0, 0, true⟩, ⟨0, 0, 0, 0, 1, 0, 0, 0, true⟩,
          ⟨100, 0, 0, 0, 2, 0, 0, 0, true⟩] 0 = some (.nan, .nan, 0) ∧
    (∀ r : ℝ, getRobotPositionAndRotation
        [⟨0, 0, 0, 0, 0, 0, 0, 0, true⟩, ⟨0, 0, 0, 0, 1, 0, 0, 0, true⟩,
          ⟨100, 0, 0, 0, 2, 0, 0, 0, true⟩] 0 ≠ some (.num 0, .num 0, r)) ∧
    sampleTravel
        [⟨0, 0, 0, 0, 0, 0, 0, 0, true⟩, ⟨0, 0, 0, 0, 1, 0, 0, 0, true⟩,
          ⟨100, 0, 0, 0, 2, 0, 0, 0, true⟩] 0 = some .nan := by
  have hseg0 : segLen (⟨0, 0, 0, 0, 0, 0, 0, 0, true⟩ : Pt)
      ⟨0, 0, 0, 0, 1, 0, 0, 0, true⟩ = 0 := by
    simp [segLen]
  have hseg1 : segLen (⟨0, 0, 0, 0, 1, 0, 0, 0, true⟩ : Pt)
      ⟨100, 0, 0, 0, 2, 0, 0, 0, true⟩ = 100 := by
    simp only [segLen]
    norm_num
    rw [show (10000 : ℝ) = 100 ^ 2 by norm_num,
      Real.sqrt_sq (by norm_num : (0:ℝ) ≤ 100)]
  have htot : totalLen [⟨0, 0, 0, 0, 0, 0, 0, 0, true⟩,
      ⟨0, 0, 0, 0, 1, 0, 0, 0, true⟩, ⟨100, 0, 0, 0, 2, 0, 0, 0, true⟩] =
      100 := by
    rw [totalLen_cons2, totalLen_pair, hseg0, hseg1]
    norm_num
  have hL : segLen (([⟨0, 0, 0, 0, 0, 0, 0, 0, true⟩,
        ⟨0, 0, 0, 0, 1, 0, 0, 0, true⟩, ⟨100, 0, 0, 0, 2, 0, 0, 0, true⟩] :
        List Pt).getD 0 dfltPt)
      (([⟨0, 0, 0, 0, 0, 0, 0, 0, true⟩, ⟨0, 0, 0, 0, 1, 0, 0, 0, true⟩,
        ⟨100, 0, 0, 0, 2, 0, 0, 0, true⟩] : List Pt).getD 1 dfltPt) = 0 := by
    simp only [List.getD_cons_zero, List.getD_cons_succ]
    exact hseg0
  have hmain : getRobotPositionAndRotation
      [⟨0, 0, 0, 0, 0, 0, 0, 0, true⟩, ⟨0, 0, 0, 0, 1, 0, 0, 0, true⟩,
        ⟨100, 0, 0, 0, 2, 0, 0, 0, true⟩] 0 = some (.nan, .nan, 0) := by
    simp only [getRobotPositionAndRotation, List.length_cons, List.length_nil]
    rw [if_neg (by norm_num), if_neg (by rw [htot]; norm_num), mul_zero,
      sampleWalk_start_nan _ 0 (by norm_num) hL]
    simp only [List.getD_cons_zero, List.getD_cons_succ]
    norm_num [atan2_zero_zero]
  refine ⟨hmain, ?_, ?_⟩
  · intro r h
    rw [hmain] at h
    simp at h
  · simp only [sampleTravel, List.length_cons, List.length_nil]
    rw [if_neg (by norm_num), if_neg (by rw [htot]; norm_num), mul_zero,
      travelWalk_start_nan _ 0 (by norm_num) hL]

/-- C6 (amended): for a route of at least two waypoints with non-zero total
length, the travelled distance equals `totalLength * progress`, hence is
monotone in progress over `(0, 1]` — extending to progress 0 (with distance
0) when the first segment has non-zero length; at every interior
cumulative-length boundary of positive cumulative length the sampled
position is exactly the shared waypoint of the two adjacent segments, while
at a boundary of zero cumulative length (only possible when the leading
segments all have zero length) the code divides `0/0` and the sampled
position is `NaN`. -/
theorem c6_monotone_continuous (ps : List Pt) (h2 : 2 ≤ ps.length)
    (hT : totalLen ps ≠ 0) :
    (∀ p1 p2 : ℝ, 0 < p1 → p1 < p2 → p2 ≤ 1 →
      ∃ d1 d2, sampleTravel ps p1 = some (.num d1) ∧
        sampleTravel ps p2 = some (.num d2) ∧ d1 ≤ d2) ∧
    (segLen (ps.getD 0 dfltPt) (ps.getD 1 dfltPt) ≠ 0 →
      ∀ p2 : ℝ, 0 < p2 → p2 ≤ 1 →
      ∃ d2, sampleTravel ps 0 = some (.num 0) ∧
        sampleTravel ps p2 = some (.num d2) ∧ 0 ≤ d2) ∧
    (∀ k, 1 ≤ k → k + 2 ≤ ps.length → 0 < priorLen ps k →
      ∃ r, getRobotPositionAndRotation ps (priorLen ps k / totalLen ps) =
        some (.num (ps.getD k dfltPt).x, .num (ps.getD k dfltPt).y, r)) ∧
    (∀ k, 1 ≤ k → k + 2 ≤ ps.length → priorLen ps k = 0 →
      ∃ r, getRobotPositionAndRotation ps (priorLen ps k / totalLen ps) =
        some (.nan, .nan, r)) := by
  have hnotlt : ¬ ps.length < 2 := by omega
  have hpos : 0 < totalLen ps := lt_of_le_of_ne (totalLen_nonneg ps) (Ne.symm hT)
  have hst : ∀ p : ℝ, 0 < p → p ≤ 1 →
      sampleTravel ps p = some (.num (totalLen ps * p)) := by
    intro p h0 h1
    simp only [sampleTravel, if_neg hnotlt, if_neg hT]
    rw [travelWalk_exact (segsOf ps) (totalLen ps * p) 0 (segsOf_ne_nil h2)
      (mul_pos hpos h0)
      (by
        have hle : totalLen ps * p ≤ totalLen ps * 1 := by
          exact mul_le_mul_of_nonneg_left h1 hpos.le
        rw [mul_one] at hle
        show totalLen ps * p ≤ 0 + sumLens (segsOf ps)
        rw [zero_add]
        exact hle)]
  refine ⟨?_, ?_, ?_, ?_⟩
  · intro p1 p2 hp1 hlt hp2
    refine ⟨totalLen ps * p1, totalLen ps * p2,
      hst p1 hp1 (by linarith), hst p2 (by linarith) hp2, ?_⟩
    nlinarith
  · intro hL p2 hp2 hp21
    refine ⟨totalLen ps * p2, ?_, hst p2 hp2 hp21,
      mul_nonneg hpos.le hp2.le⟩
    simp only [sampleTravel, if_neg hnotlt, if_neg hT]
    rw [mul_zero, travelWalk_start_pos ps 0 h2 hL]
  · intro k hk1 hk2 hkpos
    obtain ⟨i, hi, hw⟩ := sampleWalk_priorLen ps k 0 h2 (by omega) hkpos
    refine ⟨atan2 ((ps.getD (i + 1) dfltPt).y - (ps.getD i dfltPt).y)
      ((ps.getD (i + 1) dfltPt).x - (ps.getD i dfltPt).x), ?_⟩
    simp only [getRobotPositionAndRotation, if_neg hnotlt, if_neg hT]
    have htar : totalLen ps * (priorLen ps k / totalLen ps) =
        0 + priorLen ps k := by
      rw [zero_add]
      field_simp
    rw [htar, hw]
  · intro k hk1 hk2 hk0
    have hL := segLen_head_of_priorLen_zero ps k hk1 (by omega) hk0
    refine ⟨atan2 ((ps.getD 1 dfltPt).y - (ps.getD 0 dfltPt).y)
      ((ps.getD 1 dfltPt).x - (ps.getD 0 dfltPt).x), ?_⟩
    simp only [getRobotPositionAndRotation, if_neg hnotlt, if_neg hT]
    rw [hk0, zero_div, mul_zero, sampleWalk_start_nan ps 0 h2 hL]

/-- C6 witness: monotonicity between progress 1/4 and 1/2, and continuity at
the interior waypoint of positive cumulative length 100, on the concrete
right-angle three-waypoint route. -/
theorem c6_witness :
    (2 ≤ ([⟨0, 0, 0, 0, 0, 0, 0, 0, true⟩, ⟨100, 0, 0, 0, 1, 0, 0, 0, true⟩,
      ⟨100, 100, 0, 0, 2, 0, 0, 0, true⟩] : List Pt).length) ∧
    totalLen [⟨0, 0, 0, 0, 0, 0, 0, 0, true⟩, ⟨100, 0, 0, 0, 1, 0, 0, 0, true⟩,
      ⟨100, 100, 0, 0, 2, 0, 0, 0, true⟩] ≠ 0 ∧
    (0 < priorLen [⟨0, 0, 0, 0, 0, 0, 0, 0, true⟩,
      ⟨100, 0, 0, 0, 1, 0, 0, 0, true⟩, ⟨100, 100, 0, 0, 2, 0, 0, 0, true⟩] 1) ∧
    (∃ d1 d2, sampleTravel [⟨0, 0, 0, 0, 0, 0, 0, 0, true⟩,
        ⟨100, 0, 0, 0, 1, 0, 0, 0, true⟩, ⟨100, 100, 0, 0, 2, 0, 0, 0, true⟩]
        (1 / 4) = some (.num d1) ∧
      sampleTravel [⟨0, 0, 0, 0, 0, 0, 0, 0, true⟩,
        ⟨100, 0, 0, 0, 1, 0, 0, 0, true⟩, ⟨100, 100, 0, 0, 2, 0, 0, 0, true⟩]
        (1 / 2) = some (.num d2) ∧ d1 ≤ d2) ∧
    (∃ r, getRobotPositionAndRotation [⟨0, 0, 0, 0, 0, 0, 0, 0, true⟩,
        ⟨100, 0, 0, 0, 1, 0, 0, 0, true⟩, ⟨100, 100, 0, 0, 2, 0, 0, 0, true⟩]
        (priorLen [⟨0, 0, 0, 0, 0, 0, 0, 0, true⟩,
          ⟨100, 0, 0, 0, 1, 0, 0, 0, true⟩, ⟨100, 100, 0, 0, 2, 0, 0, 0, true⟩] 1 /
        totalLen [⟨0, 0, 0, 0, 0, 0, 0, 0, true⟩,
          ⟨100, 0, 0, 0, 1, 0, 0, 0, true⟩, ⟨100, 100, 0, 0, 2, 0, 0, 0, true⟩]) =
      some (.num 100, .num 0, r)) := by
  have hseg1 : segLen (⟨0, 0, 0, 0, 0, 0, 0, 0, true⟩ : Pt)
      ⟨100, 0, 0, 0, 1, 0, 0, 0, true⟩ = 100 := by
    simp only [segLen]
    norm_num
    rw [show (10000 : ℝ) = 100 ^ 2 by norm_num,
      Real.sqrt_sq (by norm_num : (0:ℝ) ≤ 100)]
  have hseg2 : segLen (⟨100, 0, 0, 0, 1, 0, 0, 0, true⟩ : Pt)
      ⟨100, 100, 0, 0, 2, 0, 0, 0, true⟩ = 100 := by
    simp only [segLen]
    norm_num
    rw [show (10000 : ℝ) = 100 ^ 2 by norm_num,
      Real.sqrt_sq (by norm_num : (0:ℝ) ≤ 100)]
  have htot : totalLen [⟨0, 0, 0, 0, 0, 0, 0, 0, true⟩,
      ⟨100, 0, 0, 0, 1, 0, 0, 0, true⟩, ⟨100, 100, 0, 0, 2, 0, 0, 0, true⟩] =
      200 := by
    rw [totalLen_cons2, totalLen_pair, hseg1, hseg2]
    norm_num
  have hT : totalLen [⟨0, 0, 0, 0, 0, 0, 0, 0, true⟩,
      ⟨100, 0, 0, 0, 1, 0, 0, 0, true⟩, ⟨100, 100, 0, 0, 2, 0, 0, 0, true⟩] ≠
      0 := by
    rw [htot]
    norm_num
  have hprior : priorLen [⟨0, 0, 0, 0, 0, 0, 0, 0, true⟩,
      ⟨100, 0, 0, 0, 1, 0, 0, 0, true⟩, ⟨100, 100, 0, 0, 2, 0, 0, 0, true⟩] 1 =
      100 := by
    simp only [priorLen, add_zero]
    exact hseg1
  have h := c6_monotone_continuous [⟨0, 0, 0, 0, 0, 0, 0, 0, true⟩,
    ⟨100, 0, 0, 0, 1, 0, 0, 0, true⟩, ⟨100, 100, 0, 0, 2, 0, 0, 0, true⟩]
    (by norm_num) hT
  refine ⟨by norm_num, hT, by rw [hprior]; norm_num,
    h.1 (1 / 4) (1 / 2) (by norm_num) (by norm_num) (by norm_num), ?_⟩
  have hcont := h.2.2.1 1 (by norm_num) (by norm_num) (by rw [hprior]; norm_num)
  simpa using hcont

/-! ### Projector lemmas -/

lemma lenSq_nonneg (ps : List Pt) (i : ℕ) : 0 ≤ lenSq ps i :=
  add_nonneg (mul_self_nonneg _) (mul_self_nonneg _)

lemma lenSq_eq_zero_iff (ps : List Pt) (i : ℕ) :
    lenSq ps i = 0 ↔ segDx ps i = 0 ∧ segDy ps i = 0 := by
  constructor
  · intro h
    simp only [lenSq] at h
    constructor
    · have h1 : segDx ps i * segDx ps i = 0 := by
        nlinarith [mul_self_nonneg (segDx ps i), mul_self_nonneg (segDy ps i)]
      exact mul_self_eq_zero.mp h1
    · have h2 : segDy ps i * segDy ps i = 0 := by
        nlinarith [mul_self_nonneg (segDx ps i), mul_self_nonneg (segDy ps i)]
      exact mul_self_eq_zero.mp h2
  · intro ⟨h1, h2⟩
    simp [lenSq, h1, h2]

lemma segB_eq_segA_succ (ps : List Pt) (i : ℕ) : segB ps i = segA ps (i + 1) := rfl

lemma cand_of_lenSq_zero (ps : List Pt) (i : ℕ) (mx my : ℝ)
    (hz : lenSq ps i = 0) :
    footX ps i mx my = (segA ps i).x ∧ footY ps i mx my = (segA ps i).y ∧
    candDist ps i mx my = queryDist mx my (segA ps i).x (segA ps i).y := by
  obtain ⟨hdx, hdy⟩ := (lenSq_eq_zero_iff ps i).mp hz
  refine ⟨by simp [footX, hdx], by simp [footY, hdy], ?_⟩
  simp [candDist, queryDist, footX, footY, hdx, hdy]

lemma clamp_sq_le (th u : ℝ) (hu0 : 0 ≤ u) (hu1 : u ≤ 1) :
    (max 0 (min 1 th) - th) ^ 2 ≤ (u - th) ^ 2 := by
  rcases le_or_lt th 0 with h | h
  · rw [min_eq_right (le_trans h zero_le_one), max_eq_left h]
    nlinarith
  · rcases le_or_lt 1 th with h1 | h1
    · rw [min_eq_left h1, max_eq_right zero_le_one]
      nlinarith
    · rw [min_eq_right h1.le, max_eq_right h.le]
      nlinarith [sq_nonneg (u - th)]

/-- Completing the square: the squared distance from the query to the point
at parameter `v` on segment `i`. -/
lemma footDistSq_identity (ps : List Pt) (i : ℕ) (mx my : ℝ)
    (hL : lenSq ps i ≠ 0) (v : ℝ) :
    (mx - ((segA ps i).x + v * segDx ps i)) *
      (mx - ((segA ps i).x + v * segDx ps i)) +
    (my - ((segA ps i).y + v * segDy ps i)) *
      (my - ((segA ps i).y + v * segDy ps i)) =
    lenSq ps i * (v - ((mx - (segA ps i).x) * segDx ps i +
        (my - (segA ps i).y) * segDy ps i) / lenSq ps i) ^ 2 +
      ((mx - (segA ps i).x) * (mx - (segA ps i).x) +
        (my - (segA ps i).y) * (my - (segA ps i).y) -
        lenSq ps i * (((mx - (segA ps i).x) * segDx ps i +
          (my - (segA ps i).y) * segDy ps i) / lenSq ps i) ^ 2) := by
  have hLth : lenSq ps i * (((mx - (segA ps i).x) * segDx ps i +
      (my - (segA ps i).y) * segDy ps i) / lenSq ps i) =
      (mx - (segA ps i).x) * segDx ps i + (my - (segA ps i).y) * segDy ps i := by
    field_simp
  simp only [lenSq] at hLth ⊢
  linear_combination (2 * v) * hLth

lemma candDist_le_param (ps : List Pt) (i : ℕ) (mx my : ℝ)
    (hL : lenSq ps i ≠ 0) (u : ℝ) (hu0 : 0 ≤ u) (hu1 : u ≤ 1) :
    candDist ps i mx my ≤
      queryDist mx my ((segA ps i).x + u * segDx ps i)
        ((segA ps i).y + u * segDy ps i) := by
  have hpos : 0 < lenSq ps i := lt_of_le_of_ne (lenSq_nonneg ps i) (Ne.symm hL)
  simp only [candDist, queryDist, footX, footY, tClamp]
  apply Real.sqrt_le_sqrt
  rw [footDistSq_identity ps i mx my hL, footDistSq_identity ps i mx my hL u]
  have hsq := clamp_sq_le (((mx - (segA ps i).x) * segDx ps i +
    (my - (segA ps i).y) * segDy ps i) / lenSq ps i) u hu0 hu1
  have := mul_le_mul_of_nonneg_left hsq hpos.le
  linarith

lemma candDist_le_start (ps : List Pt) (i : ℕ) (mx my : ℝ)
    (hL : lenSq ps i ≠ 0) :
    candDist ps i mx my ≤ queryDist mx my (segA ps i).x (segA ps i).y := by
  have h := candDist_le_param ps i mx my hL 0 le_rfl zero_le_one
  simpa using h

lemma candDist_le_end (ps : List Pt) (i : ℕ) (mx my : ℝ)
    (hL : lenSq ps i ≠ 0) :
    candDist ps i mx my ≤ queryDist mx my (segB ps i).x (segB ps i).y := by
  have h := candDist_le_param ps i mx my hL 1 zero_le_one le_rfl
  have e1 : (segA ps i).x + 1 * segDx ps i = (segB ps i).x := by
    simp [segDx]
  have e2 : (segA ps i).y + 1 * segDy ps i = (segB ps i).y := by
    simp [segDy]
  rwa [e1, e2] at h

/-- If the clamped foot of a positive-length segment is as far from the query
as the segment's start point, then the clamp parameter is `0` (the start is
the unique minimiser). -/
lemma tClamp_eq_zero_of_tie (ps : List Pt) (i : ℕ) (mx my : ℝ)
    (hL : lenSq ps i ≠ 0)
    (heq : candDist ps i mx my = queryDist mx my (segA ps i).x (segA ps i).y) :
    tClamp ps i mx my = 0 := by
  have hpos : 0 < lenSq ps i := lt_of_le_of_ne (lenSq_nonneg ps i) (Ne.symm hL)
  set th := ((mx - (segA ps i).x) * segDx ps i +
    (my - (segA ps i).y) * segDy ps i) / lenSq ps i with hth
  have hsq : (mx - footX ps i mx my) * (mx - footX ps i mx my) +
      (my - footY ps i mx my) * (my - footY ps i mx my) =
      (mx - (segA ps i).x) * (mx - (segA ps i).x) +
      (my - (segA ps i).y) * (my - (segA ps i).y) := by
    have h1 : 0 ≤ (mx - footX ps i mx my) * (mx - footX ps i mx my) +
        (my - footY ps i mx my) * (my - footY ps i mx my) :=
      add_nonneg (mul_self_nonneg _) (mul_self_nonneg _)
    have h2 : 0 ≤ (mx - (segA ps i).x) * (mx - (segA ps i).x) +
        (my - (segA ps i).y) * (my - (segA ps i).y) :=
      add_nonneg (mul_self_nonneg _) (mul_self_nonneg _)
    simp only [candDist, queryDist] at heq
    exact (Real.sqrt_inj h1 h2).mp heq
  have hid0 := footDistSq_identity ps i mx my hL 0
  have hidt := footDistSq_identity ps i mx my hL (max 0 (min 1 th))
  rw [← hth] at hid0 hidt
  simp only [footX, footY, tClamp, ← hth] at hsq
  have h0 : (mx - ((segA ps i).x + 0 * segDx ps i)) *
      (mx - ((segA ps i).x + 0 * segDx ps i)) +
      (my - ((segA ps i).y + 0 * segDy ps i)) *
      (my - ((segA ps i).y + 0 * segDy ps i)) =
      (mx - (segA ps i).x) * (mx - (segA ps i).x) +
      (my - (segA ps i).y) * (my - (segA ps i).y) := by ring
  rw [h0] at hid0
  have hkey0 : lenSq ps i * (max 0 (min 1 th) - th) ^ 2 =
      lenSq ps i * (0 - th) ^ 2 := by
    linarith [hid0, hidt, hsq]
  have hkey : (max 0 (min 1 th) - th) ^ 2 = (0 - th) ^ 2 :=
    mul_left_cancel₀ hL hkey0
  show tClamp ps i mx my = 0
  simp only [tClamp, ← hth]
  rcases le_or_lt th 0 with h | h
  · rw [min_eq_right (le_trans h zero_le_one), max_eq_left h]
  · rcases le_or_lt 1 th with h1 | h1
    · rw [min_eq_left h1, max_eq_right zero_le_one] at hkey ⊢
      nlinarith
    · rw [min_eq_right h1.le, max_eq_right h.le] at hkey ⊢
      nlinarith

/-- A run of zero-length segments pins all its waypoints to the same screen
coordinates. -/
lemma segA_eq_of_zero_run (ps : List Pt) (s : ℕ) :
    ∀ j, s ≤ j → (∀ k, s ≤ k → k < j → lenSq ps k = 0) →
      (segA ps j).x = (segA ps s).x ∧ (segA ps j).y = (segA ps s).y := by
  intro j
  induction j with
  | zero =>
    intro hs _
    obtain rfl : s = 0 := Nat.le_zero.mp hs
    exact ⟨rfl, rfl⟩
  | succ j ih =>
    intro hs hz
    rcases Nat.lt_or_ge s (j + 1) with hlt | hge
    · have hsj : s ≤ j := by omega
      obtain ⟨hx, hy⟩ := ih hsj (fun k hk1 hk2 => hz k hk1 (by omega))
      obtain ⟨hdx, hdy⟩ := (lenSq_eq_zero_iff ps j).mp (hz j hsj (by omega))
      have hBx : (segA ps (j + 1)).x = (segA ps j).x := by
        have : (segB ps j).x - (segA ps j).x = 0 := hdx
        rw [← segB_eq_segA_succ]
        linarith
      have hBy : (segA ps (j + 1)).y = (segA ps j).y := by
        have : (segB ps j).y - (segA ps j).y = 0 := hdy
        rw [← segB_eq_segA_succ]
        linarith
      exact ⟨by rw [hBx, hx], by rw [hBy, hy]⟩
    · obtain rfl : s = j + 1 := by omega
      exact ⟨rfl, rfl⟩

lemma priorDist_succ (ps : List Pt) (k : ℕ) :
    priorDist ps (k + 1) = priorDist ps k + Real.sqrt (lenSq ps k) :=
  Finset.sum_range_succ _ _

lemma priorDist_eq_of_zero_run (ps : List Pt) (s : ℕ) :
    ∀ c, s ≤ c → (∀ k, s ≤ k → k < c → lenSq ps k = 0) →
      priorDist ps c = priorDist ps s := by
  intro c
  induction c with
  | zero =>
    intro hs _
    obtain rfl : s = 0 := Nat.le_zero.mp hs
    rfl
  | succ c ih =>
    intro hs hz
    rcases Nat.lt_or_ge s (c + 1) with hlt | hge
    · have hsc : s ≤ c := by omega
      rw [priorDist_succ, hz c hsc (by omega), Real.sqrt_zero, add_zero]
      exact ih hsc (fun k hk1 hk2 => hz k hk1 (by omega))
    · obtain rfl : s = c + 1 := by omega
      rfl

lemma pathTotal_nonneg (ps : List Pt) : 0 ≤ pathTotal ps := by
  simp only [pathTotal, priorDist]
  exact Finset.sum_nonneg fun i _ => Real.sqrt_nonneg _

lemma exists_pos_seg (ps : List Pt) (hT : pathTotal ps ≠ 0) :
    ∃ j, j < ps.length - 1 ∧ lenSq ps j ≠ 0 := by
  by_contra hcon
  push_neg at hcon
  apply hT
  simp only [pathTotal, priorDist]
  apply Finset.sum_eq_zero
  intro j hj
  rw [hcon j (Finset.mem_range.mp hj), Real.sqrt_zero]

lemma all_zero_of_total_zero (ps : List Pt) (htot : pathTotal ps = 0) :
    ∀ i, i < ps.length - 1 → lenSq ps i = 0 := by
  intro i hi
  have hnn : ∀ j ∈ Finset.range (ps.length - 1), 0 ≤ Real.sqrt (lenSq ps j) :=
    fun j _ => Real.sqrt_nonneg _
  have hterm : Real.sqrt (lenSq ps i) = 0 := by
    have h := (Finset.sum_eq_zero_iff_of_nonneg hnn).mp htot i
      (Finset.mem_range.mpr hi)
    exact h
  exact le_antisymm (Real.sqrt_eq_zero'.mp hterm) (lenSq_nonneg ps i)

/-- Characterisation of the spec-side scan: it returns the first index
realising the minimum distance over all scanned segments. -/
lemma specScan_spec (ps : List Pt) (mx my : ℝ) (m : ℕ) (hm : 1 ≤ m) :
    ∃ j, j < m ∧
      (List.range m).foldl (specStep ps mx my) none =
        some (candDist ps j mx my, j) ∧
      (∀ k, k < m → candDist ps j mx my ≤ candDist ps k mx my) ∧
      (∀ k, k < j → candDist ps j mx my < candDist ps k mx my) := by
  induction m, hm using Nat.le_induction with
  | base =>
    refine ⟨0, by norm_num, rfl, ?_, ?_⟩
    · intro k hk
      interval_cases k
      exact le_rfl
    · intro k hk
      exact absurd hk (by omega)
  | succ m hm ih =>
    obtain ⟨j, hj, hfold, hmin, hstrict⟩ := ih
    rw [List.range_succ, List.foldl_append, List.foldl_cons, List.foldl_nil,
      hfold]
    by_cases hlt : candDist ps m mx my < candDist ps j mx my
    · refine ⟨m, by omega, ?_, ?_, ?_⟩
      · simp [specStep, hlt]
      · intro k hk
        rcases Nat.lt_or_ge k m with h | h
        · exact le_trans hlt.le (hmin k h)
        · obtain rfl : k = m := by omega
          exact le_rfl
      · intro k hk
        exact lt_of_lt_of_le hlt (hmin k hk)
    · refine ⟨j, by omega, ?_, ?_, hstrict⟩
      · simp [specStep, hlt]
      · intro k hk
        rcases Nat.lt_or_ge k m with h | h
        · exact hmin k h
        · obtain rfl : k = m := by omega
          exact not_lt.mp hlt

lemma codeScan_all_zero (ps : List Pt) (mx my : ℝ) (m : ℕ)
    (hz : ∀ i, i < m → lenSq ps i = 0) :
    (List.range m).foldl (codeStep ps mx my) none = none := by
  induction m with
  | zero => rfl
  | succ m ih =>
    rw [List.range_succ, List.foldl_append, List.foldl_cons, List.foldl_nil,
      ih (fun i hi => hz i (by omega))]
    simp [codeStep, hz m (by omega)]

/-- Characterisation of the source's scan: it returns the data of the first
positive-length index realising the minimum distance over all positive-length
scanned segments. -/
lemma codeScan_spec (ps : List Pt) (mx my : ℝ) (m : ℕ)
    (hex : ∃ i, i < m ∧ lenSq ps i ≠ 0) :
    ∃ c, c < m ∧ lenSq ps c ≠ 0 ∧
      (List.range m).foldl (codeStep ps mx my) none =
        some (candDist ps c mx my, (footX ps c mx my, footY ps c mx my),
          candProg ps c mx my) ∧
      (∀ k, k < m → lenSq ps k ≠ 0 →
        candDist ps c mx my ≤ candDist ps k mx my) ∧
      (∀ k, k < c → lenSq ps k ≠ 0 →
        candDist ps c mx my < candDist ps k mx my) := by
  induction m with
  | zero =>
    obtain ⟨i, hi, -⟩ := hex
    exact absurd hi (by omega)
  | succ m ih =>
    by_cases hex' : ∃ i, i < m ∧ lenSq ps i ≠ 0
    · obtain ⟨c, hc, hcz, hfold, hmin, hstrict⟩ := ih hex'
      rw [List.range_succ, List.foldl_append, List.foldl_cons, List.foldl_nil,
        hfold]
      by_cases hzm : lenSq ps m = 0
      · refine ⟨c, by omega, hcz, by simp [codeStep, hzm], ?_, hstrict⟩
        intro k hk hkz
        rcases Nat.lt_or_ge k m with h | h
        · exact hmin k h hkz
        · obtain rfl : k = m := by omega
          exact absurd hzm hkz
      · by_cases hlt : candDist ps m mx my < candDist ps c mx my
        · refine ⟨m, by omega, hzm, ?_, ?_, ?_⟩
          · simp [codeStep, hzm, hlt]
          · intro k hk hkz
            rcases Nat.lt_or_ge k m with h | h
            · exact le_trans hlt.le (hmin k h hkz)
            · obtain rfl : k = m := by omega
              exact le_rfl
          · intro k hk hkz
            exact lt_of_lt_of_le hlt (hmin k hk hkz)
        · refine ⟨c, by omega, hcz, ?_, ?_, hstrict⟩
          · simp [codeStep, hzm, hlt]
          · intro k hk hkz
            rcases Nat.lt_or_ge k m with h | h
            · exact hmin k h hkz
            · obtain rfl : k = m := by omega
              exact not_lt.mp hlt
    · push_neg at hex'
      obtain ⟨i, hi, hiz⟩ := hex
      have him : i = m := by
        by_contra hne
        exact hiz (hex' i (by omega))
      subst him
      rw [List.range_succ, List.foldl_append, List.foldl_cons, List.foldl_nil,
        codeScan_all_zero ps mx my i (fun k hk => by
          by_contra hkz
          exact hkz (hex' k hk))]
      refine ⟨i, by omega, hiz, by simp [codeStep, hiz], ?_, ?_⟩
      · intro k hk hkz
        rcases Nat.lt_or_ge k i with h | h
        · exact absurd (hex' k h) hkz
        · obtain rfl : k = i := by omega
          exact le_rfl
      · intro k hk hkz
        exact absurd (hex' k hk) hkz

/-- C7: `getClosestPointOnPath` coincides with the projection contract
modelled from the spec's words: it returns `none` exactly when fewer than 2
waypoints exist, the total path length is zero, or the minimum distance to
the segments is not strictly below the 50-pixel threshold, and otherwise it
returns the globally closest foot point (first-found winning on exact ties
in the left-to-right scan) with progress
`(length of prior segments + t * winning segment length) / total length`.
(The zero-length segments the source skips through `NaN` comparisons can
never beat the adjacent positive-length segment through the shared waypoint,
so the outputs agree even on ties with degenerate segments.) -/
theorem c7_projector_equiv (ps : List Pt) (mx my : ℝ) :
    getClosestPointOnPath ps mx my = projectSpec ps mx my := by
  classical
  by_cases hlen : ps.length < 2
  · simp [getClosestPointOnPath, projectSpec, hlen]
  · by_cases htot : pathTotal ps = 0
    · have hz := all_zero_of_total_zero ps htot
      simp only [getClosestPointOnPath, projectSpec, if_neg hlen, if_pos htot]
      rw [closestAcc, codeScan_all_zero ps mx my _ hz]
    · have hm1 : 1 ≤ ps.length - 1 := by omega
      have htpos : 0 < pathTotal ps :=
        lt_of_le_of_ne (pathTotal_nonneg ps) (Ne.symm htot)
      obtain ⟨s, hs, hsfold, hsmin, hsstrict⟩ :=
        specScan_spec ps mx my (ps.length - 1) hm1
      obtain ⟨c, hc, hcz, hcfold, hcmin, hcstrict⟩ :=
        codeScan_spec ps mx my (ps.length - 1) (by
          obtain ⟨j, hj, hjz⟩ := exists_pos_seg ps htot
          exact ⟨j, hj, hjz⟩)
      have hKey : candDist ps c mx my = candDist ps s mx my ∧
          footX ps c mx my = footX ps s mx my ∧
          footY ps c mx my = footY ps s mx my ∧
          candProg ps c mx my = candProg ps s mx my := by
        by_cases hsz : lenSq ps s = 0
        · obtain ⟨hfsx, hfsy, hds⟩ := cand_of_lenSq_zero ps s mx my hsz
          have hex2 : ∃ j, s ≤ j ∧ j < ps.length - 1 ∧ lenSq ps j ≠ 0 := by
            by_contra hcon
            push_neg at hcon
            obtain ⟨j0, hj0, hj0z⟩ := exists_pos_seg ps htot
            have hj0s : j0 < s := by
              by_contra hge
              push_neg at hge
              exact hj0z (hcon j0 hge hj0)
            have hj0le : j0 ≤ s - 1 := by omega
            have hPg := Nat.findGreatest_spec (P := fun k => lenSq ps k ≠ 0)
              hj0le hj0z
            have hj2le : Nat.findGreatest (fun k => lenSq ps k ≠ 0) (s - 1) ≤
                s - 1 := Nat.findGreatest_le _
            have hj2lt : Nat.findGreatest (fun k => lenSq ps k ≠ 0) (s - 1) <
                s := by omega
            have hrun : ∀ k,
                Nat.findGreatest (fun k => lenSq ps k ≠ 0) (s - 1) + 1 ≤ k →
                k < s → lenSq ps k = 0 := by
              intro k hk1 hk2
              by_contra hkz
              exact Nat.findGreatest_is_greatest (show
                Nat.findGreatest (fun k => lenSq ps k ≠ 0) (s - 1) < k by omega)
                (show k ≤ s - 1 by omega) hkz
            obtain ⟨hcx, hcy⟩ := segA_eq_of_zero_run ps
              (Nat.findGreatest (fun k => lenSq ps k ≠ 0) (s - 1) + 1) s
              (by omega) hrun
            have hle := candDist_le_end ps
              (Nat.findGreatest (fun k => lenSq ps k ≠ 0) (s - 1)) mx my hPg
            rw [segB_eq_segA_succ, ← hcx, ← hcy, ← hds] at hle
            have hstr := hsstrict _ hj2lt
            linarith
          have hj1z := (Nat.find_spec hex2).2.2
          have hj1s := (Nat.find_spec hex2).1
          have hj1m := (Nat.find_spec hex2).2.1
          have hrun1 : ∀ k, s ≤ k → k < Nat.find hex2 → lenSq ps k = 0 := by
            intro k hk1 hk2
            by_contra hkz
            exact Nat.find_min hex2 hk2 ⟨hk1, by omega, hkz⟩
          obtain ⟨hcx1, hcy1⟩ := segA_eq_of_zero_run ps s (Nat.find hex2)
            hj1s hrun1
          have hdj1 : candDist ps (Nat.find hex2) mx my =
              candDist ps s mx my := by
            have hle := candDist_le_start ps (Nat.find hex2) mx my hj1z
            rw [hcx1, hcy1, ← hds] at hle
            exact le_antisymm hle (hsmin _ hj1m)
          have hcs : s ≤ c := by
            by_contra hlt
            push_neg at hlt
            have h1 := hsstrict c hlt
            have h2 := hcmin _ hj1m hj1z
            rw [hdj1] at h2
            linarith
          have hcj1 : c = Nat.find hex2 := by
            rcases Nat.lt_trichotomy c (Nat.find hex2) with h | h | h
            · exact absurd ⟨hcs, hc, hcz⟩ (Nat.find_min hex2 h)
            · exact h
            · have h1 := hcstrict _ h hj1z
              rw [hdj1] at h1
              have h2 := hsmin c hc
              linarith
          rw [← hcj1] at hj1z hj1s hj1m hdj1 hcx1 hcy1 hrun1
          have htie : candDist ps c mx my =
              queryDist mx my (segA ps c).x (segA ps c).y := by
            rw [hdj1, hds, hcx1, hcy1]
          have ht0 := tClamp_eq_zero_of_tie ps c mx my hj1z htie
          have hfootx : footX ps c mx my = (segA ps c).x := by
            simp [footX, ht0]
          have hfooty : footY ps c mx my = (segA ps c).y := by
            simp [footY, ht0]
          refine ⟨hdj1, ?_, ?_, ?_⟩
          · rw [hfootx, hcx1]
            exact hfsx.symm
          · rw [hfooty, hcy1]
            exact hfsy.symm
          · have hpc : candProg ps c mx my =
                priorDist ps c / pathTotal ps := by
              simp [candProg, if_pos htpos, ht0]
            have hps' : candProg ps s mx my =
                priorDist ps s / pathTotal ps := by
              simp [candProg, if_pos htpos, hsz]
            have hprior : priorDist ps c = priorDist ps s :=
              priorDist_eq_of_zero_run ps s c hj1s hrun1
            rw [hpc, hps', hprior]
        · have heq : candDist ps c mx my = candDist ps s mx my :=
            le_antisymm (hcmin s hs hsz) (hsmin c hc)
          have hcs : c = s := by
            rcases Nat.lt_trichotomy c s with h | h | h
            · have hcon := hsstrict c h
              rw [heq] at hcon
              exact absurd hcon (lt_irrefl _)
            · exact h
            · have hcon := hcstrict s h hsz
              rw [heq] at hcon
              exact absurd hcon (lt_irrefl _)
          subst hcs
          exact ⟨rfl, rfl, rfl, rfl⟩
      obtain ⟨hD, hFX, hFY, hPG⟩ := hKey
      simp only [getClosestPointOnPath, projectSpec, if_neg hlen, if_neg htot]
      rw [closestAcc, hcfold, hsfold]
      show (if candDist ps c mx my < 50 then
          some ((footX ps c mx my, footY ps c mx my), candProg ps c mx my)
        else none) =
        (if candDist ps s mx my < 50 then
          some ((footX ps s mx my, footY ps s mx my), candProg ps s mx my)
        else none)
      rw [hD, hFX, hFY, hPG]

end

end VexRoute
